import Mathlib

/-!
Verification of the `broadcast` Go package: two signal-broadcast registries,
the direct one (`Broadcast[T]`, file `broadcast.go`) and the keyed one
(`UniqueBroadcast[K, T]`, file `unique.go`).

Modelling decisions, from the source:

* The Go map `map[string][]X` is embedded as `Option (List (String × List X))`:
  an association list with at most one entry per key, wrapped in `Option` so
  that the zero value `nil` map (`none`) is distinguished from an allocated
  empty map (`some []`).  Reads (`lookup`), `delete` and `range` behave the
  same on `none` and `some []`, exactly as Go map reads, deletes and ranges do
  on a `nil` map; a map *assignment* on a `nil` map, which panics in Go, is
  modelled by the fallible `massign?` returning `none`.  Go map iteration
  order is unspecified; the association-list order is one admissible order.
* Slices stored in the map are plain `List`s.  The source only ever stores
  results of `append` on a read value, which are non-nil slices, so a `nil`
  read (`listeners == nil` in `Unwatch`) happens exactly when the key is
  absent; this is modelled by `lookup? = none`.
* `unique.Handle[T]` for comparable `T` is modelled as `T` itself:
  `unique.Make` canonicalizes by value, handle equality coincides with value
  equality of the underlying values, and `Handle.Value` recovers the value
  (`unique.Make(x).Value() == x`).
* A `Uniquer[K, T]` interface value is modelled as a record of its two
  accessors: the dedup key `Unique() : K` and the payload `Value() : T`
  (the spec requires the key to be stable, so a record is faithful).
* Handlers are Go function values; the trace-relevant data is only their
  identity, so they are elements of an abstract type `H`.  `Broadcast` runs
  every handler on every snapshot listener; a handler may mutate the registry
  (re-entrant `Watch`/`Unwatch` through the closed-over receiver), which is
  modelled by threading the state through an arbitrary effect
  `step : H → String → T → State → State` while recording the invocation
  trace, mirroring the snapshot-then-loop shape of the source.
-/

namespace BroadcastRepo

/-! ### Go map semantics on association lists -/

/-- Go map read `m[k]` returning `(value, true)` on a present key:
first entry with the key, if any. -/
def lookup? {κ α : Type _} [DecidableEq κ] : List (κ × α) → κ → Option α
  | [], _ => none
  | (k, v) :: rest, s => if k = s then some v else lookup? rest s

/-- Go map assignment `m[k] = v` on an allocated map: replace the entry in
place, or add it when absent. -/
def mset {κ α : Type _} [DecidableEq κ] : List (κ × α) → κ → α → List (κ × α)
  | [], s, v => [(s, v)]
  | (k, w) :: rest, s, v => if k = s then (s, v) :: rest else (k, w) :: mset rest s v

/-- Go `delete(m, k)`: drop the entry for `k`. -/
def mdel {κ α : Type _} [DecidableEq κ] : List (κ × α) → κ → List (κ × α)
  | [], _ => []
  | (k, w) :: rest, s => if k = s then mdel rest s else (k, w) :: mdel rest s

/-- Go map assignment `m[k] = v` on a possibly-`nil` map: assignment to a
`nil` map panics (`none`); otherwise the allocated map is updated. -/
def massign? {κ α : Type _} [DecidableEq κ] :
    Option (List (κ × α)) → κ → α → Option (Option (List (κ × α)))
  | none, _, _ => none
  | some m, s, v => some (some (mset m s v))

@[simp] theorem lookup?_nil {κ α : Type _} [DecidableEq κ] (s : κ) :
    lookup? ([] : List (κ × α)) s = none := rfl

@[simp] theorem lookup?_cons {κ α : Type _} [DecidableEq κ] (k : κ) (v : α) (rest) (s : κ) :
    lookup? ((k, v) :: rest) s = if k = s then some v else lookup? rest s := rfl

theorem lookup?_mset_self {κ α : Type _} [DecidableEq κ] (m : List (κ × α)) (s : κ) (v : α) :
    lookup? (mset m s v) s = some v := by
  induction m with
  | nil => simp [mset]
  | cons e rest ih =>
    obtain ⟨k, w⟩ := e
    by_cases h : k = s <;> simp [mset, h, ih]

theorem lookup?_mset_ne {κ α : Type _} [DecidableEq κ] (m : List (κ × α)) (s s' : κ) (v : α)
    (h : s' ≠ s) : lookup? (mset m s v) s' = lookup? m s' := by
  induction m with
  | nil => simp [mset, h.symm]
  | cons e rest ih =>
    obtain ⟨k, w⟩ := e
    by_cases hk : k = s
    · subst hk
      simp [mset, h.symm]
    · simp [mset, hk, ih]

theorem lookup?_mdel_self {κ α : Type _} [DecidableEq κ] (m : List (κ × α)) (s : κ) :
    lookup? (mdel m s) s = none := by
  induction m with
  | nil => simp [mdel]
  | cons e rest ih =>
    obtain ⟨k, w⟩ := e
    by_cases h : k = s <;> simp [mdel, h, ih]

theorem lookup?_mdel_ne {κ α : Type _} [DecidableEq κ] (m : List (κ × α)) (s s' : κ)
    (h : s' ≠ s) : lookup? (mdel m s) s' = lookup? m s' := by
  induction m with
  | nil => simp [mdel]
  | cons e rest ih =>
    obtain ⟨k, w⟩ := e
    by_cases hk : k = s
    · subst hk
      simp [mdel, h.symm, ih]
    · simp [mdel, hk, ih]

theorem lookup?_mem {κ α : Type _} [DecidableEq κ] {m : List (κ × α)} {s : κ} {v : α}
    (h : lookup? m s = some v) : (s, v) ∈ m := by
  induction m with
  | nil => simp [lookup?] at h
  | cons e rest ih =>
    obtain ⟨k, w⟩ := e
    by_cases hk : k = s
    · subst hk
      simp [lookup?] at h
      simp [h]
    · simp [lookup?, hk] at h
      exact List.mem_cons_of_mem _ (ih h)

/-- Remove the first element satisfying `p`, keeping the rest: the effect of
the source's scan-and-splice loop in `Unwatch`. -/
def removeFirstP {α : Type _} (p : α → Bool) : List α → List α
  | [] => []
  | x :: rest => if p x then rest else x :: removeFirstP p rest

theorem removeFirstP_of_forall_false {α : Type _} (p : α → Bool) (l : List α)
    (h : ∀ x ∈ l, p x = false) : removeFirstP p l = l := by
  induction l with
  | nil => rfl
  | cons x rest ih =>
    have hx := h x (List.mem_cons_self x rest)
    simp [removeFirstP, hx, ih fun y hy => h y (List.mem_cons_of_mem x hy)]

theorem removeFirstP_of_split {α : Type _} (p : α → Bool) (l1 l2 : List α) (x : α)
    (h1 : ∀ y ∈ l1, p y = false) (h2 : p x = true) :
    removeFirstP p (l1 ++ x :: l2) = l1 ++ l2 := by
  induction l1 with
  | nil => simp [removeFirstP, h2]
  | cons y rest ih =>
    have hy := h1 y (List.mem_cons_self y rest)
    simp [removeFirstP, hy, ih fun z hz => h1 z (List.mem_cons_of_mem y hz)]

theorem removeFirstP_sublist {α : Type _} (p : α → Bool) (l : List α) :
    (removeFirstP p l).Sublist l := by
  induction l with
  | nil => simp [removeFirstP]
  | cons x rest ih =>
    by_cases h : p x
    · simp [removeFirstP, h]
    · simpa [removeFirstP, h] using ih.cons₂ x

/-- The `Range` loop shared by both registries: visit each map entry as
`(signal, len(listeners))`, breaking after the first visit on which `fn`
returns false.  The result is the list of visits performed. -/
def rangeGo {α : Type _} (fn : String → Nat → Bool) : List (String × List α) → List (String × Nat)
  | [] => []
  | (s, l) :: rest => (s, l.length) :: (if fn s l.length then rangeGo fn rest else [])

/-! ### Direct registry: `Broadcast[T comparable]` (`broadcast.go`)

`H` is the abstract type of handler values (`Handler[T]` in Go); `T` is the
comparable payload type, standing in for `unique.Handle[T]` as well. -/

/-- State of `Broadcast[T]`: the handler slice and the
`map[string][]unique.Handle[T]` listener map (`none` is the zero-value `nil`
map). -/
structure Broadcast (H T : Type) where
  handlers : List H
  listeners : Option (List (String × List T))
  deriving DecidableEq

namespace Broadcast

variable {H T : Type} [DecidableEq T]

/-- `Handle`: append the handler to the handler slice (the `nil` check in the
source only allocates the empty slice `append` would allocate anyway). -/
def Handle (b : Broadcast H T) (handler : H) : Broadcast H T :=
  { b with handlers := b.handlers ++ [handler] }

/-- `Watch`: allocate the listener map if `nil`; read the slice for `signal`;
return if the handle (`unique.Make(data)`, modelled as `data` itself) is
already present; otherwise append it. -/
def Watch (b : Broadcast H T) (signal : String) (data : T) : Broadcast H T :=
  let m := b.listeners.getD []
  let listeners := (lookup? m signal).getD []
  if listeners.any (fun listener => decide (listener = data)) then
    { b with listeners := some m }
  else
    { b with listeners := some (mset m signal (listeners ++ [data])) }

/-- `Unwatch`: read the slice for `signal`; if it is `nil` (absent key),
return; else splice out the first element equal to the handle and break. -/
def Unwatch (b : Broadcast H T) (signal : String) (data : T) : Broadcast H T :=
  match lookup? (b.listeners.getD []) signal with
  | none => b
  | some listeners =>
    if listeners.any (fun item => decide (item = data)) then
      { b with
        listeners := some (mset (b.listeners.getD []) signal
          (removeFirstP (fun item => decide (item = data)) listeners)) }
    else b

/-- The snapshot `listeners := b.listeners[signal]` read at the top of
`Broadcast`. -/
def sigListeners (b : Broadcast H T) (signal : String) : List T :=
  (lookup? (b.listeners.getD []) signal).getD []

/-- The (handler, payload) invocation sequence of `Broadcast(signal)`:
every handler of the snapshot, against every snapshot listener's
`data.Value()` (identity on the handle model), in nested-loop order. -/
def BroadcastTrace (b : Broadcast H T) (signal : String) : List (H × T) :=
  let listeners := sigListeners b signal
  let handlers := b.handlers
  handlers.flatMap (fun handler => listeners.map (fun data => (handler, data)))

/-- `Broadcast(signal)` at the value level, with handler effects threaded
through `step`.  The source snapshots the slice *header* without copying, so
this value-level run is faithful exactly when no handler splices signal
`signal`'s backing array in place during the run (the direct registry's
`Unwatch` does splice in place); the aliasing-faithful semantics is
`ABroadcastRun` below. -/
def BroadcastRun (step : H → String → T → Broadcast H T → Broadcast H T)
    (b : Broadcast H T) (signal : String) : Broadcast H T × List (H × T) :=
  let listeners := sigListeners b signal
  let handlers := b.handlers
  handlers.foldl (fun acc handler =>
    listeners.foldl
      (fun acc2 data => (step handler signal data acc2.1, acc2.2 ++ [(handler, data)]))
      acc)
    (b, [])

/-- `Clean`: `delete(b.listeners, signal)`; a `delete` on a `nil` map is a
no-op, so the `Option` is mapped over. -/
def Clean (b : Broadcast H T) (signal : String) : Broadcast H T :=
  { b with listeners := b.listeners.map (fun m => mdel m signal) }

/-- `CleanAll`: assign a fresh empty map. -/
def CleanAll (b : Broadcast H T) : Broadcast H T :=
  { b with listeners := some [] }

/-- `HasWatch`: `exists && len(listeners) > 0`. -/
def HasWatch (b : Broadcast H T) (signal : String) : Bool :=
  match lookup? (b.listeners.getD []) signal with
  | none => false
  | some listeners => decide (0 < listeners.length)

/-- `WatchCount`: `len(b.listeners[signal])`. -/
def WatchCount (b : Broadcast H T) (signal : String) : Nat :=
  ((lookup? (b.listeners.getD []) signal).getD []).length

/-- `Range`: visit `(signal, len(listeners))` for each map entry, stopping
after the first visit on which `fn` returns false.  Returns the list of
visited pairs (the Go method returns nothing; the visits are its observable
behaviour). -/
def RangeVisits (b : Broadcast H T) (fn : String → Nat → Bool) : List (String × Nat) :=
  rangeGo fn (b.listeners.getD [])

/-- `New`: allocated empty handler slice and listener map. -/
def New : Broadcast H T := ⟨[], some []⟩

/-- The zero value `&Broadcast[T]{}`: `nil` handler slice, `nil` map. -/
def zeroValue : Broadcast H T := ⟨[], none⟩

/-- `Watch` with the Go panic semantics of map assignment made explicit
(`none` = panic); the source allocates the map before assigning, so this
always succeeds — see the totality theorem. -/
def WatchChecked (b : Broadcast H T) (signal : String) (data : T) :
    Option (Broadcast H T) :=
  let m? : Option (List (String × List T)) :=
    if b.listeners.isNone then some [] else b.listeners
  let listeners := (lookup? (m?.getD []) signal).getD []
  if listeners.any (fun listener => decide (listener = data)) then
    some { b with listeners := m? }
  else
    match massign? m? signal (listeners ++ [data]) with
    | none => none
    | some m' => some { b with listeners := m' }

/-- `Unwatch` with the Go panic semantics of map assignment made explicit;
the source only assigns after a successful (non-`nil`) read, which implies
the map itself is allocated. -/
def UnwatchChecked (b : Broadcast H T) (signal : String) (data : T) :
    Option (Broadcast H T) :=
  match lookup? (b.listeners.getD []) signal with
  | none => some b
  | some listeners =>
    if listeners.any (fun item => decide (item = data)) then
      match massign? b.listeners signal
          (removeFirstP (fun item => decide (item = data)) listeners) with
      | none => none
      | some m' => some { b with listeners := m' }
    else some b

end Broadcast

/-! ### Keyed registry: `UniqueBroadcast[K comparable, T any]` (`unique.go`) -/

/-- A `Uniquer[K, T]` interface value, as the record of its accessors:
`Unique() unique.Handle[K]` (the handle modelled as the key value `K`) and
`Value() T`. -/
structure Uniquer (K T : Type) where
  unique : K
  value : T
  deriving DecidableEq

/-- State of `UniqueBroadcast[K, T]`: handler slice and the
`map[string][]Uniquer[K, T]` listener map (`none` = `nil`). -/
structure UniqueBroadcast (H K T : Type) where
  handlers : List H
  listeners : Option (List (String × List (Uniquer K T)))
  deriving DecidableEq

namespace UniqueBroadcast

variable {H K T : Type} [DecidableEq K]

/-- `Handle`: append the handler. -/
def Handle (b : UniqueBroadcast H K T) (handler : H) : UniqueBroadcast H K T :=
  { b with handlers := b.handlers ++ [handler] }

/-- `Watch`: allocate the map if `nil`; return if some listener's `Unique()`
handle equals `data.Unique()`; otherwise store a fresh slice with `data`
appended (the copy is observationally the same as `append`). -/
def Watch (b : UniqueBroadcast H K T) (signal : String) (data : Uniquer K T) :
    UniqueBroadcast H K T :=
  let m := b.listeners.getD []
  let listeners := (lookup? m signal).getD []
  if listeners.any (fun listener => decide (listener.unique = data.unique)) then
    { b with listeners := some m }
  else
    { b with listeners := some (mset m signal (listeners ++ [data])) }

/-- `Unwatch`: return if the slice for `signal` is `nil` (absent key); else
store a fresh slice with the first key-matching element dropped, and break. -/
def Unwatch (b : UniqueBroadcast H K T) (signal : String) (data : Uniquer K T) :
    UniqueBroadcast H K T :=
  match lookup? (b.listeners.getD []) signal with
  | none => b
  | some listeners =>
    if listeners.any (fun item => decide (item.unique = data.unique)) then
      { b with
        listeners := some (mset (b.listeners.getD []) signal
          (removeFirstP (fun item => decide (item.unique = data.unique)) listeners)) }
    else b

/-- The snapshot copy of `b.listeners[signal]` taken under the read lock. -/
def sigListeners (b : UniqueBroadcast H K T) (signal : String) : List (Uniquer K T) :=
  (lookup? (b.listeners.getD []) signal).getD []

/-- The (handler, payload) invocation sequence of `Broadcast(signal)`: each
handler of the snapshot against `data.Value()` of each snapshot listener. -/
def BroadcastTrace (b : UniqueBroadcast H K T) (signal : String) : List (H × T) :=
  let listeners := sigListeners b signal
  let handlers := b.handlers
  handlers.flatMap (fun handler => listeners.map (fun data => (handler, data.value)))

/-- `Broadcast(signal)` with re-entrant handlers: snapshot copies first, then
the nested loops, threading the registry state through the handler effect
`step` while recording the invocation trace. -/
def BroadcastRun
    (step : H → String → T → UniqueBroadcast H K T → UniqueBroadcast H K T)
    (b : UniqueBroadcast H K T) (signal : String) :
    UniqueBroadcast H K T × List (H × T) :=
  let listeners := sigListeners b signal
  let handlers := b.handlers
  handlers.foldl (fun acc handler =>
    listeners.foldl
      (fun acc2 data =>
        (step handler signal data.value acc2.1, acc2.2 ++ [(handler, data.value)]))
      acc)
    (b, [])

/-- `HasWatch`: `exists && len(listeners) > 0`. -/
def HasWatch (b : UniqueBroadcast H K T) (signal : String) : Bool :=
  match lookup? (b.listeners.getD []) signal with
  | none => false
  | some listeners => decide (0 < listeners.length)

/-- `WatchCount`: `len(b.listeners[signal])`. -/
def WatchCount (b : UniqueBroadcast H K T) (signal : String) : Nat :=
  ((lookup? (b.listeners.getD []) signal).getD []).length

/-- `Clean`: `delete(b.listeners, signal)`. -/
def Clean (b : UniqueBroadcast H K T) (signal : String) : UniqueBroadcast H K T :=
  { b with listeners := b.listeners.map (fun m => mdel m signal) }

/-- `CleanAll`: assign a fresh empty map. -/
def CleanAll (b : UniqueBroadcast H K T) : UniqueBroadcast H K T :=
  { b with listeners := some [] }

/-- `Range`: visits of `(signal, len(listeners))`, stopping after the first
false. -/
def RangeVisits (b : UniqueBroadcast H K T) (fn : String → Nat → Bool) :
    List (String × Nat) :=
  rangeGo fn (b.listeners.getD [])

/-- `NewUnique`: allocated empty handler slice and listener map. -/
def New : UniqueBroadcast H K T := ⟨[], some []⟩

/-- The zero value `&UniqueBroadcast[K, T]{}`. -/
def zeroValue : UniqueBroadcast H K T := ⟨[], none⟩

/-- `Watch` with Go map-assignment panic semantics explicit. -/
def WatchChecked (b : UniqueBroadcast H K T) (signal : String) (data : Uniquer K T) :
    Option (UniqueBroadcast H K T) :=
  let m? : Option (List (String × List (Uniquer K T))) :=
    if b.listeners.isNone then some [] else b.listeners
  let listeners := (lookup? (m?.getD []) signal).getD []
  if listeners.any (fun listener => decide (listener.unique = data.unique)) then
    some { b with listeners := m? }
  else
    match massign? m? signal (listeners ++ [data]) with
    | none => none
    | some m' => some { b with listeners := m' }

/-- `Unwatch` with Go map-assignment panic semantics explicit. -/
def UnwatchChecked (b : UniqueBroadcast H K T) (signal : String) (data : Uniquer K T) :
    Option (UniqueBroadcast H K T) :=
  match lookup? (b.listeners.getD []) signal with
  | none => some b
  | some listeners =>
    if listeners.any (fun item => decide (item.unique = data.unique)) then
      match massign? b.listeners signal
          (removeFirstP (fun item => decide (item.unique = data.unique)) listeners) with
      | none => none
      | some m' => some { b with listeners := m' }
    else some b

end UniqueBroadcast

/-! ### The broadcast loops: the recorded trace is independent of the
re-entrant effects of the handlers -/

theorem foldl_pair_snd {α σ β : Type _} (g : α → σ → σ) (f : α → β) (l : List α) :
    ∀ (st : σ) (acc : List β),
      (l.foldl (fun a d => (g d a.1, a.2 ++ [f d])) (st, acc)).2 = acc ++ l.map f := by
  induction l with
  | nil => intro st acc; simp
  | cons x rest ih =>
    intro st acc
    simp only [List.foldl_cons, List.map_cons]
    rw [ih]
    simp

theorem foldl_pair_trace {γ α σ β : Type _} (g : γ → α → σ → σ) (f : γ → α → β)
    (listeners : List α) (handlers : List γ) :
    ∀ (st : σ) (acc : List β),
      (handlers.foldl (fun acc2 h =>
          listeners.foldl (fun a d => (g h d a.1, a.2 ++ [f h d])) acc2) (st, acc)).2
        = acc ++ handlers.flatMap (fun h => listeners.map (f h)) := by
  induction handlers with
  | nil => intro st acc; simp
  | cons h hs ih =>
    intro st acc
    simp only [List.foldl_cons, List.flatMap_cons]
    rw [show (listeners.foldl (fun a d => (g h d a.1, a.2 ++ [f h d])) (st, acc))
        = ((listeners.foldl (fun a d => (g h d a.1, a.2 ++ [f h d])) (st, acc)).1,
           acc ++ listeners.map (f h)) from by rw [← foldl_pair_snd (g h) (f h) listeners st acc]]
    rw [ih]
    simp

theorem Broadcast.broadcastRun_trace {H T : Type} [DecidableEq T]
    (step : H → String → T → Broadcast H T → Broadcast H T)
    (b : Broadcast H T) (signal : String) :
    (Broadcast.BroadcastRun step b signal).2 = Broadcast.BroadcastTrace b signal := by
  have := foldl_pair_trace (fun h d st => step h signal d st) (fun h d => (h, d))
    (b.sigListeners signal) b.handlers b []
  simpa [Broadcast.BroadcastRun, Broadcast.BroadcastTrace] using this

theorem UniqueBroadcast.ubroadcastRun_trace {H K T : Type} [DecidableEq K]
    (step : H → String → T → UniqueBroadcast H K T → UniqueBroadcast H K T)
    (b : UniqueBroadcast H K T) (signal : String) :
    (UniqueBroadcast.BroadcastRun step b signal).2
      = UniqueBroadcast.BroadcastTrace b signal := by
  have := foldl_pair_trace (fun h d st => step h signal d.value st)
    (fun (h : H) (d : Uniquer K T) => (h, d.value))
    (b.sigListeners signal) b.handlers b []
  simpa [UniqueBroadcast.BroadcastRun, UniqueBroadcast.BroadcastTrace] using this

/-! ### Field preservation lemmas -/

@[simp] theorem Broadcast.handlers_Watch {H T : Type} [DecidableEq T]
    (b : Broadcast H T) (s : String) (d : T) : (b.Watch s d).handlers = b.handlers := by
  unfold Watch
  dsimp only
  split <;> rfl

@[simp] theorem Broadcast.handlers_Unwatch {H T : Type} [DecidableEq T]
    (b : Broadcast H T) (s : String) (d : T) : (b.Unwatch s d).handlers = b.handlers := by
  unfold Unwatch
  split
  · rfl
  · split <;> rfl

@[simp] theorem Broadcast.handlers_Clean {H T : Type} [DecidableEq T]
    (b : Broadcast H T) (s : String) : (b.Clean s).handlers = b.handlers := rfl

@[simp] theorem Broadcast.handlers_CleanAll {H T : Type} [DecidableEq T]
    (b : Broadcast H T) : b.CleanAll.handlers = b.handlers := rfl

@[simp] theorem Broadcast.handlers_Handle {H T : Type} [DecidableEq T]
    (b : Broadcast H T) (h : H) : (b.Handle h).handlers = b.handlers ++ [h] := rfl

@[simp] theorem UniqueBroadcast.uhandlers_Watch {H K T : Type} [DecidableEq K]
    (b : UniqueBroadcast H K T) (s : String) (d : Uniquer K T) :
    (b.Watch s d).handlers = b.handlers := by
  unfold Watch
  dsimp only
  split <;> rfl

@[simp] theorem UniqueBroadcast.uhandlers_Unwatch {H K T : Type} [DecidableEq K]
    (b : UniqueBroadcast H K T) (s : String) (d : Uniquer K T) :
    (b.Unwatch s d).handlers = b.handlers := by
  unfold Unwatch
  split
  · rfl
  · split <;> rfl

@[simp] theorem UniqueBroadcast.uhandlers_Clean {H K T : Type} [DecidableEq K]
    (b : UniqueBroadcast H K T) (s : String) : (b.Clean s).handlers = b.handlers := rfl

@[simp] theorem UniqueBroadcast.uhandlers_CleanAll {H K T : Type} [DecidableEq K]
    (b : UniqueBroadcast H K T) : b.CleanAll.handlers = b.handlers := rfl

@[simp] theorem UniqueBroadcast.uhandlers_Handle {H K T : Type} [DecidableEq K]
    (b : UniqueBroadcast H K T) (h : H) : (b.Handle h).handlers = b.handlers ++ [h] := rfl

/-! ### Mutating operations and reachable states

`Broadcast` itself takes no write lock and mutates nothing; a state mutation
during a broadcast is a re-entrant call of one of these operations by a
handler, so closure under them covers broadcasts as well. -/

/-- A mutating public operation of the direct registry. -/
inductive DOp (H T : Type) where
  | handle (handler : H)
  | watch (signal : String) (data : T)
  | unwatch (signal : String) (data : T)
  | clean (signal : String)
  | cleanAll

/-- Apply a mutating operation of the direct registry. -/
def DOp.apply {H T : Type} [DecidableEq T] : DOp H T → Broadcast H T → Broadcast H T
  | .handle h, b => b.Handle h
  | .watch s d, b => b.Watch s d
  | .unwatch s d, b => b.Unwatch s d
  | .clean s, b => b.Clean s
  | .cleanAll, b => b.CleanAll

/-- A mutating public operation of the keyed registry. -/
inductive UOp (H K T : Type) where
  | handle (handler : H)
  | watch (signal : String) (data : Uniquer K T)
  | unwatch (signal : String) (data : Uniquer K T)
  | clean (signal : String)
  | cleanAll

/-- Apply a mutating operation of the keyed registry. -/
def UOp.apply {H K T : Type} [DecidableEq K] :
    UOp H K T → UniqueBroadcast H K T → UniqueBroadcast H K T
  | .handle h, b => b.Handle h
  | .watch s d, b => b.Watch s d
  | .unwatch s d, b => b.Unwatch s d
  | .clean s, b => b.Clean s
  | .cleanAll, b => b.CleanAll

/-- Direct-registry states reachable from the zero value `&Broadcast[T]{}` or
from `New()` by the public mutating operations. -/
inductive DReachable {H T : Type} [DecidableEq T] : Broadcast H T → Prop where
  | zero : DReachable Broadcast.zeroValue
  | new : DReachable Broadcast.New
  | step {b : Broadcast H T} (hb : DReachable b) (op : DOp H T) : DReachable (op.apply b)

/-- Keyed-registry states reachable from the zero value or from
`NewUnique()`. -/
inductive UReachable {H K T : Type} [DecidableEq K] : UniqueBroadcast H K T → Prop where
  | zero : UReachable UniqueBroadcast.zeroValue
  | new : UReachable UniqueBroadcast.New
  | step {b : UniqueBroadcast H K T} (hb : UReachable b) (op : UOp H K T) :
      UReachable (op.apply b)

/-- Dedup invariant of the direct registry: under every signal, no two
listener handles are equal. -/
def DInv {H T : Type} [DecidableEq T] (b : Broadcast H T) : Prop :=
  ∀ (s : String) (l : List T), lookup? (b.listeners.getD []) s = some l → l.Nodup

/-- Dedup invariant of the keyed registry: under every signal, no two
listeners share a `Unique()` key. -/
def UInv {H K T : Type} [DecidableEq K] (b : UniqueBroadcast H K T) : Prop :=
  ∀ (s : String) (l : List (Uniquer K T)),
    lookup? (b.listeners.getD []) s = some l → (l.map (fun u => u.unique)).Nodup

theorem nodup_append_singleton {α : Type _} {l : List α} {d : α} (hl : l.Nodup)
    (hd : d ∉ l) : (l ++ [d]).Nodup :=
  hl.append (List.nodup_singleton d) (List.disjoint_singleton.mpr hd)

theorem Broadcast.dinv_Handle {H T : Type} [DecidableEq T] {b : Broadcast H T}
    (hb : DInv b) (h : H) : DInv (b.Handle h) :=
  fun s l hl => hb s l hl

theorem Broadcast.dinv_Watch {H T : Type} [DecidableEq T] {b : Broadcast H T}
    (hb : DInv b) (s : String) (d : T) : DInv (b.Watch s d) := by
  unfold DInv Broadcast.Watch
  dsimp only
  split
  · intro s' l hl
    simp only [Option.getD_some] at hl
    exact hb s' l hl
  · rename_i hany
    intro s' l hl
    simp only [Option.getD_some] at hl
    by_cases hs : s' = s
    · subst hs
      rw [lookup?_mset_self] at hl
      simp only [Option.some.injEq] at hl
      subst hl
      have hd : d ∉ (lookup? (b.listeners.getD []) s').getD [] := by
        intro hmem
        apply hany
        simp only [List.any_eq_true]
        exact ⟨d, hmem, by simp⟩
      have hnodup : ((lookup? (b.listeners.getD []) s').getD []).Nodup := by
        cases hm : lookup? (b.listeners.getD []) s' with
        | none => simp
        | some l0 => simpa [hm] using hb s' l0 hm
      exact nodup_append_singleton hnodup hd
    · rw [lookup?_mset_ne _ _ _ _ hs] at hl
      exact hb s' l hl

theorem Broadcast.dinv_Unwatch {H T : Type} [DecidableEq T] {b : Broadcast H T}
    (hb : DInv b) (s : String) (d : T) : DInv (b.Unwatch s d) := by
  unfold DInv Broadcast.Unwatch
  split
  · exact hb
  · rename_i listeners hlk
    split
    · intro s' l hl
      simp only [Option.getD_some] at hl
      by_cases hs : s' = s
      · subst hs
        rw [lookup?_mset_self] at hl
        simp only [Option.some.injEq] at hl
        subst hl
        exact (hb s' listeners hlk).sublist (removeFirstP_sublist _ _)
      · rw [lookup?_mset_ne _ _ _ _ hs] at hl
        exact hb s' l hl
    · exact hb

theorem Broadcast.dinv_Clean {H T : Type} [DecidableEq T] {b : Broadcast H T}
    (hb : DInv b) (s : String) : DInv (b.Clean s) := by
  unfold DInv Broadcast.Clean
  cases hbl : b.listeners with
  | none => intro s' l hl; simp at hl
  | some m =>
    intro s' l hl
    simp only [Option.map_some', Option.getD_some] at hl
    by_cases hs : s' = s
    · subst hs
      rw [lookup?_mdel_self] at hl
      exact absurd hl (by simp)
    · rw [lookup?_mdel_ne _ _ _ hs] at hl
      exact hb s' l (by simpa [hbl] using hl)

theorem Broadcast.dinv_CleanAll {H T : Type} [DecidableEq T] {b : Broadcast H T} :
    DInv (b.CleanAll) := by
  intro s l hl
  simp [Broadcast.CleanAll] at hl

/-- Every reachable state of the direct registry satisfies the dedup
invariant. -/
theorem Broadcast.dinv_of_reachable {H T : Type} [DecidableEq T] {b : Broadcast H T}
    (hb : DReachable b) : DInv b := by
  induction hb with
  | zero => intro s l hl; simp [Broadcast.zeroValue] at hl
  | new => intro s l hl; simp [Broadcast.New] at hl
  | step _ op ih =>
    cases op with
    | handle h => exact Broadcast.dinv_Handle ih h
    | watch s d => exact Broadcast.dinv_Watch ih s d
    | unwatch s d => exact Broadcast.dinv_Unwatch ih s d
    | clean s => exact Broadcast.dinv_Clean ih s
    | cleanAll => exact Broadcast.dinv_CleanAll

theorem UniqueBroadcast.uinv_Handle {H K T : Type} [DecidableEq K]
    {b : UniqueBroadcast H K T} (hb : UInv b) (h : H) : UInv (b.Handle h) :=
  fun s l hl => hb s l hl

theorem UniqueBroadcast.uinv_Watch {H K T : Type} [DecidableEq K]
    {b : UniqueBroadcast H K T} (hb : UInv b) (s : String) (d : Uniquer K T) :
    UInv (b.Watch s d) := by
  unfold UInv UniqueBroadcast.Watch
  dsimp only
  split
  · intro s' l hl
    simp only [Option.getD_some] at hl
    exact hb s' l hl
  · rename_i hany
    intro s' l hl
    simp only [Option.getD_some] at hl
    by_cases hs : s' = s
    · subst hs
      rw [lookup?_mset_self] at hl
      simp only [Option.some.injEq] at hl
      subst hl
      have hd : d.unique ∉
          ((lookup? (b.listeners.getD []) s').getD []).map (fun u => u.unique) := by
        intro hmem
        obtain ⟨x, hx, hxu⟩ := List.mem_map.mp hmem
        apply hany
        simp only [List.any_eq_true]
        exact ⟨x, hx, by simp [hxu]⟩
      have hnodup :
          (((lookup? (b.listeners.getD []) s').getD []).map (fun u => u.unique)).Nodup := by
        cases hm : lookup? (b.listeners.getD []) s' with
        | none => simp
        | some l0 => simpa [hm] using hb s' l0 hm
      rw [List.map_append]
      exact nodup_append_singleton hnodup (by simpa using hd)
    · rw [lookup?_mset_ne _ _ _ _ hs] at hl
      exact hb s' l hl

theorem UniqueBroadcast.uinv_Unwatch {H K T : Type} [DecidableEq K]
    {b : UniqueBroadcast H K T} (hb : UInv b) (s : String) (d : Uniquer K T) :
    UInv (b.Unwatch s d) := by
  unfold UInv UniqueBroadcast.Unwatch
  split
  · exact hb
  · rename_i listeners hlk
    split
    · intro s' l hl
      simp only [Option.getD_some] at hl
      by_cases hs : s' = s
      · subst hs
        rw [lookup?_mset_self] at hl
        simp only [Option.some.injEq] at hl
        subst hl
        exact (hb s' listeners hlk).sublist ((removeFirstP_sublist _ _).map _)
      · rw [lookup?_mset_ne _ _ _ _ hs] at hl
        exact hb s' l hl
    · exact hb

theorem UniqueBroadcast.uinv_Clean {H K T : Type} [DecidableEq K]
    {b : UniqueBroadcast H K T} (hb : UInv b) (s : String) : UInv (b.Clean s) := by
  unfold UInv UniqueBroadcast.Clean
  cases hbl : b.listeners with
  | none => intro s' l hl; simp at hl
  | some m =>
    intro s' l hl
    simp only [Option.map_some', Option.getD_some] at hl
    by_cases hs : s' = s
    · subst hs
      rw [lookup?_mdel_self] at hl
      exact absurd hl (by simp)
    · rw [lookup?_mdel_ne _ _ _ hs] at hl
      exact hb s' l (by simpa [hbl] using hl)

theorem UniqueBroadcast.uinv_CleanAll {H K T : Type} [DecidableEq K]
    {b : UniqueBroadcast H K T} : UInv (b.CleanAll) := by
  intro s l hl
  simp [UniqueBroadcast.CleanAll] at hl

/-- Every reachable state of the keyed registry satisfies the dedup
invariant. -/
theorem UniqueBroadcast.uinv_of_reachable {H K T : Type} [DecidableEq K]
    {b : UniqueBroadcast H K T} (hb : UReachable b) : UInv b := by
  induction hb with
  | zero => intro s l hl; simp [UniqueBroadcast.zeroValue] at hl
  | new => intro s l hl; simp [UniqueBroadcast.New] at hl
  | step _ op ih =>
    cases op with
    | handle h => exact UniqueBroadcast.uinv_Handle ih h
    | watch s d => exact UniqueBroadcast.uinv_Watch ih s d
    | unwatch s d => exact UniqueBroadcast.uinv_Unwatch ih s d
    | clean s => exact UniqueBroadcast.uinv_Clean ih s
    | cleanAll => exact UniqueBroadcast.uinv_CleanAll

/-! ### Idempotence of `Watch` -/

theorem Broadcast.Watch_idem {H T : Type} [DecidableEq T] (b : Broadcast H T)
    (s : String) (d : T) : (b.Watch s d).Watch s d = b.Watch s d := by
  unfold Watch
  dsimp only
  by_cases h :
      (((lookup? (b.listeners.getD []) s).getD []).any fun x => decide (x = d)) = true
  · simp [h]
  · simp [h, lookup?_mset_self]

theorem UniqueBroadcast.uWatch_idem {H K T : Type} [DecidableEq K]
    (b : UniqueBroadcast H K T) (s : String) (d : Uniquer K T) :
    (b.Watch s d).Watch s d = b.Watch s d := by
  unfold Watch
  dsimp only
  by_cases h :
      (((lookup? (b.listeners.getD []) s).getD []).any
        fun x => decide (x.unique = d.unique)) = true
  · simp [h]
  · simp [h, lookup?_mset_self]

/-! ### Characterization of `Unwatch` -/

theorem Broadcast.Unwatch_absent {H T : Type} [DecidableEq T] (b : Broadcast H T)
    (s : String) (d : T) (hl : lookup? (b.listeners.getD []) s = none) :
    b.Unwatch s d = b := by
  unfold Unwatch
  simp only [hl]

theorem Broadcast.Unwatch_not_found {H T : Type} [DecidableEq T] (b : Broadcast H T)
    (s : String) (d : T) (l : List T) (hl : lookup? (b.listeners.getD []) s = some l)
    (h : ∀ x ∈ l, x ≠ d) : b.Unwatch s d = b := by
  unfold Unwatch
  simp only [hl]
  rw [if_neg (by simp [List.any_eq_true]; exact fun hmem => h d hmem rfl)]

theorem Broadcast.Unwatch_found {H T : Type} [DecidableEq T] (b : Broadcast H T)
    (s : String) (d : T) (l1 l2 : List T)
    (hl : lookup? (b.listeners.getD []) s = some (l1 ++ d :: l2))
    (h1 : ∀ x ∈ l1, x ≠ d) :
    b.Unwatch s d
      = { b with listeners := some (mset (b.listeners.getD []) s (l1 ++ l2)) } := by
  unfold Unwatch
  simp only [hl]
  rw [if_pos (by simp [List.any_eq_true])]
  rw [removeFirstP_of_split _ l1 l2 d (fun y hy => by simp [h1 y hy]) (by simp)]

theorem UniqueBroadcast.uUnwatch_absent {H K T : Type} [DecidableEq K]
    (b : UniqueBroadcast H K T) (s : String) (d : Uniquer K T)
    (hl : lookup? (b.listeners.getD []) s = none) : b.Unwatch s d = b := by
  unfold Unwatch
  simp only [hl]

theorem UniqueBroadcast.uUnwatch_not_found {H K T : Type} [DecidableEq K]
    (b : UniqueBroadcast H K T) (s : String) (d : Uniquer K T) (l : List (Uniquer K T))
    (hl : lookup? (b.listeners.getD []) s = some l)
    (h : ∀ x ∈ l, x.unique ≠ d.unique) : b.Unwatch s d = b := by
  unfold Unwatch
  simp only [hl]
  rw [if_neg (by simp [List.any_eq_true]; exact h)]

theorem UniqueBroadcast.uUnwatch_found {H K T : Type} [DecidableEq K]
    (b : UniqueBroadcast H K T) (s : String) (d u : Uniquer K T)
    (l1 l2 : List (Uniquer K T))
    (hl : lookup? (b.listeners.getD []) s = some (l1 ++ u :: l2))
    (hu : u.unique = d.unique) (h1 : ∀ x ∈ l1, x.unique ≠ d.unique) :
    b.Unwatch s d
      = { b with listeners := some (mset (b.listeners.getD []) s (l1 ++ l2)) } := by
  unfold Unwatch
  simp only [hl]
  rw [if_pos (by simp [List.any_eq_true]; exact Or.inr (Or.inl hu))]
  rw [removeFirstP_of_split _ l1 l2 u (fun y hy => by simp [h1 y hy]) (by simp [hu])]

/-! ### Checked operations never panic -/

theorem Broadcast.watchChecked_eq {H T : Type} [DecidableEq T] (b : Broadcast H T)
    (s : String) (d : T) : b.WatchChecked s d = some (b.Watch s d) := by
  unfold WatchChecked Watch
  cases hbl : b.listeners with
  | none => simp [massign?]
  | some m0 =>
    simp only [Option.isNone_some, Bool.false_eq_true, if_false, Option.getD_some]
    split <;> simp [massign?]

theorem Broadcast.unwatchChecked_eq {H T : Type} [DecidableEq T] (b : Broadcast H T)
    (s : String) (d : T) : b.UnwatchChecked s d = some (b.Unwatch s d) := by
  unfold UnwatchChecked Unwatch
  cases hbl : b.listeners with
  | none => simp
  | some m0 =>
    simp only [Option.getD_some]
    cases hlk : lookup? m0 s with
    | none => rfl
    | some l =>
      dsimp only
      split <;> simp [massign?]

theorem UniqueBroadcast.uwatchChecked_eq {H K T : Type} [DecidableEq K]
    (b : UniqueBroadcast H K T) (s : String) (d : Uniquer K T) :
    b.WatchChecked s d = some (b.Watch s d) := by
  unfold WatchChecked Watch
  cases hbl : b.listeners with
  | none => simp [massign?]
  | some m0 =>
    simp only [Option.isNone_some, Bool.false_eq_true, if_false, Option.getD_some]
    split <;> simp [massign?]

theorem UniqueBroadcast.uunwatchChecked_eq {H K T : Type} [DecidableEq K]
    (b : UniqueBroadcast H K T) (s : String) (d : Uniquer K T) :
    b.UnwatchChecked s d = some (b.Unwatch s d) := by
  unfold UnwatchChecked Unwatch
  cases hbl : b.listeners with
  | none => simp
  | some m0 =>
    simp only [Option.getD_some]
    cases hlk : lookup? m0 s with
    | none => rfl
    | some l =>
      dsimp only
      split <;> simp [massign?]

/-! ### `Range` loop lemmas -/

theorem rangeGo_all_true {α : Type _} (fn : String → Nat → Bool)
    (entries : List (String × List α)) (h : ∀ e ∈ entries, fn e.1 e.2.length = true) :
    rangeGo fn entries = entries.map (fun e => (e.1, e.2.length)) := by
  induction entries with
  | nil => rfl
  | cons e rest ih =>
    obtain ⟨k, l⟩ := e
    have hk := h (k, l) (List.mem_cons_self _ _)
    simp [rangeGo, hk, ih fun e he => h e (List.mem_cons_of_mem _ he)]

theorem rangeGo_cons_false {α : Type _} (fn : String → Nat → Bool) (k : String)
    (l : List α) (rest : List (String × List α)) (h : fn k l.length = false) :
    rangeGo fn ((k, l) :: rest) = [(k, l.length)] := by
  simp [rangeGo, h]

theorem rangeGo_split {α : Type _} (fn : String → Nat → Bool)
    (p rest : List (String × List α)) (e : String × List α)
    (hp : ∀ x ∈ p, fn x.1 x.2.length = true) (he : fn e.1 e.2.length = false) :
    rangeGo fn (p ++ e :: rest)
      = p.map (fun x => (x.1, x.2.length)) ++ [(e.1, e.2.length)] := by
  induction p with
  | nil =>
    obtain ⟨k, l⟩ := e
    simp [rangeGo, he]
  | cons x xs ih =>
    obtain ⟨k, l⟩ := x
    have hk := hp (k, l) (List.mem_cons_self _ _)
    simp [rangeGo, hk, ih fun y hy => hp y (List.mem_cons_of_mem _ hy)]

theorem rangeGo_mem {α : Type _} (fn : String → Nat → Bool)
    (entries : List (String × List α)) (s : String) (c : Nat)
    (h : (s, c) ∈ rangeGo fn entries) : ∃ l, (s, l) ∈ entries ∧ l.length = c := by
  induction entries with
  | nil => simp [rangeGo] at h
  | cons e rest ih =>
    obtain ⟨k, l⟩ := e
    simp only [rangeGo] at h
    rcases List.mem_cons.mp h with h1 | h2
    · obtain ⟨hs, hc⟩ := Prod.mk.injEq .. ▸ h1
      exact ⟨l, by simp [hs.symm], hc.symm⟩
    · by_cases hfn : fn k l.length = true
      · rw [if_pos hfn] at h2
        obtain ⟨l', hm, hlen⟩ := ih h2
        exact ⟨l', List.mem_cons_of_mem _ hm, hlen⟩
      · rw [if_neg hfn] at h2
        simp at h2

theorem lookup?_isSome_of_mem {κ α : Type _} [DecidableEq κ] {m : List (κ × α)}
    {s : κ} {v : α} (h : (s, v) ∈ m) : (lookup? m s).isSome := by
  induction m with
  | nil => simp at h
  | cons e rest ih =>
    obtain ⟨k, w⟩ := e
    by_cases hk : k = s
    · simp [lookup?, hk]
    · rcases List.mem_cons.mp h with h1 | h2
      · exact absurd (congrArg Prod.fst h1).symm hk
      · simp only [lookup?_cons, hk, if_false]
        exact ih h2

theorem length_flatMap_map {α β γ : Type _} (hs : List α) (ls : List β) (f : α → β → γ) :
    (hs.flatMap (fun h => ls.map (f h))).length = hs.length * ls.length := by
  induction hs with
  | nil => simp
  | cons h rest ih =>
    simp only [List.flatMap_cons, List.length_append, List.length_map, List.length_cons, ih]
    ring

theorem Broadcast.Watch_duplicate {H T : Type} [DecidableEq T] (b : Broadcast H T)
    (s : String) (d : T) (hmem : d ∈ b.sigListeners s) : b.Watch s d = b := by
  obtain ⟨hdl, bl⟩ := b
  cases bl with
  | none => simp [sigListeners] at hmem
  | some m =>
    unfold Watch
    dsimp only [Option.getD_some]
    rw [if_pos (by simp [List.any_eq_true]; simpa [sigListeners] using hmem)]

theorem UniqueBroadcast.uWatch_duplicate {H K T : Type} [DecidableEq K]
    (b : UniqueBroadcast H K T) (s : String) (d : Uniquer K T)
    (hmem : ∃ u ∈ b.sigListeners s, u.unique = d.unique) : b.Watch s d = b := by
  obtain ⟨hdl, bl⟩ := b
  cases bl with
  | none => simp [sigListeners] at hmem
  | some m =>
    unfold Watch
    dsimp only [Option.getD_some]
    rw [if_pos (by simp only [List.any_eq_true, decide_eq_true_eq]; simpa [sigListeners] using hmem)]

theorem Broadcast.lookup_isSome_Watch {H T : Type} [DecidableEq T] (b : Broadcast H T)
    (s s' : String) (d : T) (h : (lookup? (b.listeners.getD []) s').isSome) :
    (lookup? ((b.Watch s d).listeners.getD []) s').isSome := by
  unfold Watch
  dsimp only
  split
  · simpa using h
  · simp only [Option.getD_some]
    by_cases hs : s' = s
    · subst hs
      rw [lookup?_mset_self]
      rfl
    · rw [lookup?_mset_ne _ _ _ _ hs]
      exact h

theorem Broadcast.lookup_isSome_Unwatch {H T : Type} [DecidableEq T] (b : Broadcast H T)
    (s s' : String) (d : T) (h : (lookup? (b.listeners.getD []) s').isSome) :
    (lookup? ((b.Unwatch s d).listeners.getD []) s').isSome := by
  unfold Unwatch
  split
  · exact h
  · split
    · simp only [Option.getD_some]
      by_cases hs : s' = s
      · subst hs
        rw [lookup?_mset_self]
        rfl
      · rw [lookup?_mset_ne _ _ _ _ hs]
        exact h
    · exact h

theorem UniqueBroadcast.ulookup_isSome_Watch {H K T : Type} [DecidableEq K]
    (b : UniqueBroadcast H K T) (s s' : String) (d : Uniquer K T)
    (h : (lookup? (b.listeners.getD []) s').isSome) :
    (lookup? ((b.Watch s d).listeners.getD []) s').isSome := by
  unfold Watch
  dsimp only
  split
  · simpa using h
  · simp only [Option.getD_some]
    by_cases hs : s' = s
    · subst hs
      rw [lookup?_mset_self]
      rfl
    · rw [lookup?_mset_ne _ _ _ _ hs]
      exact h

theorem UniqueBroadcast.ulookup_isSome_Unwatch {H K T : Type} [DecidableEq K]
    (b : UniqueBroadcast H K T) (s s' : String) (d : Uniquer K T)
    (h : (lookup? (b.listeners.getD []) s').isSome) :
    (lookup? ((b.Unwatch s d).listeners.getD []) s').isSome := by
  unfold Unwatch
  split
  · exact h
  · split
    · simp only [Option.getD_some]
      by_cases hs : s' = s
      · subst hs
        rw [lookup?_mset_self]
        rfl
      · rw [lookup?_mset_ne _ _ _ _ hs]
        exact h
    · exact h

theorem flatMap_singleton_map {α β : Type _} (l : List α) (f : α → β) :
    l.flatMap (fun a => [f a]) = l.map f := by
  induction l <;> simp_all

theorem UniqueBroadcast.watch_fresh {H K T : Type} [DecidableEq K] (hs : List H)
    (s : String) (u : Uniquer K T) :
    (⟨hs, none⟩ : UniqueBroadcast H K T).Watch s u = ⟨hs, some [(s, [u])]⟩ := by
  unfold Watch
  simp [mset]

/-! ### Aliasing-faithful model of the direct registry's `Broadcast`

The direct registry's `Broadcast` reads the slice header `b.listeners[signal]`
under the read lock and iterates it *without copying*; the direct `Unwatch`
splices with `append(listeners[:i], listeners[i+1:]...)`, which moves the
elements after position `i` one slot down *inside the same backing array*.
A handler that re-entrantly unwatches a listener of the broadcast signal
therefore mutates the array the broadcast is still reading.  To capture this,
slices are modelled as headers (backing-array index and length) into a heap
of backing arrays whose physical length is their capacity.  (The keyed
registry copies the handler and listener slices under the lock and builds
fresh slices in `Watch`/`Unwatch`, so the value-level model above is faithful
for it.) -/

/-- A Go slice header: backing-array index in the heap, and length. -/
structure GoSlice where
  arr : Nat
  len : Nat
  deriving DecidableEq

/-- Direct-registry state with explicit backing arrays.  `listeners` maps a
signal to the header of its slice; an absent key is the `nil` slice.  (The
`nil`/allocated-map distinction is immaterial here — see `WatchChecked` — so
the map is kept allocated.) -/
structure ABroadcast (H T : Type) where
  handlers : List H
  heap : List (List T)
  listeners : List (String × GoSlice)
  deriving DecidableEq

namespace ABroadcast

variable {H T : Type} [DecidableEq T] [Inhabited T]

/-- Read element `j` of backing array `a`. -/
def aread (st : ABroadcast H T) (a j : Nat) : T :=
  (st.heap.getD a []).getD j default

/-- Capacity of backing array `a` (its physical length). -/
def acap (st : ABroadcast H T) (a : Nat) : Nat :=
  (st.heap.getD a []).length

/-- Write element `j` of backing array `a` in place. -/
def awrite (st : ABroadcast H T) (a j : Nat) (v : T) : ABroadcast H T :=
  { st with heap := st.heap.set a ((st.heap.getD a []).set j v) }

/-- The elements a slice header denotes: the first `len` cells of its array. -/
def aelems (st : ABroadcast H T) (hdr : GoSlice) : List T :=
  (st.heap.getD hdr.arr []).take hdr.len

/-- The in-place splice performed by `append(l[:i], l[i+1:]...)` on a slice of
length `len`: cells `i .. len-2` receive the old cells `i+1 .. len-1`; the
cell `len-1` keeps its (now stale) value, cells past `len` are untouched. -/
def spliceArr (l : List T) (i len : Nat) : List T :=
  (List.range l.length).map
    (fun j => if i ≤ j ∧ j + 1 < len then l.getD (j + 1) default else l.getD j default)

/-- `Watch` under the header/heap representation.  `slack` is the extra
capacity the allocator grants when `append` must grow the array (Go leaves
the growth amount unspecified, so it is an argument). -/
def AWatch (st : ABroadcast H T) (s : String) (d : T) (slack : Nat) : ABroadcast H T :=
  match lookup? st.listeners s with
  | none =>
      { st with
        heap := st.heap ++ [d :: List.replicate slack default],
        listeners := mset st.listeners s ⟨st.heap.length, 1⟩ }
  | some hdr =>
      if (aelems st hdr).any (fun x => decide (x = d)) then st
      else if hdr.len < acap st hdr.arr then
        { (awrite st hdr.arr hdr.len d) with
          listeners := mset st.listeners s ⟨hdr.arr, hdr.len + 1⟩ }
      else
        { st with
          heap := st.heap ++ [aelems st hdr ++ d :: List.replicate slack default],
          listeners := mset st.listeners s ⟨st.heap.length, hdr.len + 1⟩ }

/-- `Unwatch` under the header/heap representation: find the first matching
element and splice it out in place, shortening the header. -/
def AUnwatch (st : ABroadcast H T) (s : String) (d : T) : ABroadcast H T :=
  match lookup? st.listeners s with
  | none => st
  | some hdr =>
      match (aelems st hdr).findIdx? (fun x => decide (x = d)) with
      | none => st
      | some i =>
          { st with
            heap := st.heap.set hdr.arr (spliceArr (st.heap.getD hdr.arr []) i hdr.len),
            listeners := mset st.listeners s ⟨hdr.arr, hdr.len - 1⟩ }

/-- `Handle` under the header/heap representation. -/
def AHandle (st : ABroadcast H T) (h : H) : ABroadcast H T :=
  { st with handlers := st.handlers ++ [h] }

/-- `Clean` under the header/heap representation. -/
def AClean (st : ABroadcast H T) (s : String) : ABroadcast H T :=
  { st with listeners := mdel st.listeners s }

/-- `CleanAll` under the header/heap representation. -/
def ACleanAll (st : ABroadcast H T) : ABroadcast H T :=
  { st with listeners := [] }

end ABroadcast

/-- A mutating operation a handler may perform re-entrantly during a
broadcast of the direct registry (a broadcast itself mutates nothing). -/
inductive AOp (H T : Type) where
  | handle (h : H)
  | watch (s : String) (d : T) (slack : Nat)
  | unwatch (s : String) (d : T)
  | clean (s : String)
  | cleanAll

/-- Apply a re-entrant operation. -/
def AOp.apply {H T : Type} [DecidableEq T] [Inhabited T] :
    AOp H T → ABroadcast H T → ABroadcast H T
  | .handle h, st => st.AHandle h
  | .watch s d slack, st => st.AWatch s d slack
  | .unwatch s d, st => st.AUnwatch s d
  | .clean s, st => st.AClean s
  | .cleanAll, st => st.ACleanAll

/-- Whether the operation is an `Unwatch` on the given signal. -/
def AOp.isUnwatchOn {H T : Type} (s : String) : AOp H T → Bool
  | .unwatch t _ => decide (t = s)
  | _ => false

/-- Apply a sequence of re-entrant operations in order. -/
def applyAOps {H T : Type} [DecidableEq T] [Inhabited T]
    (ops : List (AOp H T)) (st : ABroadcast H T) : ABroadcast H T :=
  ops.foldl (fun st op => op.apply st) st

namespace ABroadcast

variable {H T : Type} [DecidableEq T] [Inhabited T]

/-- The slice header `Broadcast` snapshots for `signal` (`nil` slice when the
signal is absent). -/
def snapHeader (st : ABroadcast H T) (signal : String) : GoSlice :=
  (lookup? st.listeners signal).getD ⟨0, 0⟩

/-- `WatchCount` under the header/heap representation. -/
def AWatchCount (st : ABroadcast H T) (signal : String) : Nat :=
  (st.snapHeader signal).len

/-- The (handler, payload) trace `Broadcast(signal)` would produce if every
payload were read from the state at snapshot time. -/
def ABroadcastTrace (st : ABroadcast H T) (signal : String) : List (H × T) :=
  st.handlers.flatMap (fun h => (st.aelems (st.snapHeader signal)).map (fun v => (h, v)))

/-- `Broadcast(signal)` with re-entrant handlers, aliasing-faithfully: the
header and the handler slice are snapshotted first; each iteration reads cell
`j` of the snapshot's backing array *in the current state*, records the
invocation, and then applies the operations `behav` says that handler performs
re-entrantly on that invocation. -/
def ABroadcastRun (behav : H → String → T → List (AOp H T))
    (st : ABroadcast H T) (signal : String) : ABroadcast H T × List (H × T) :=
  let hdr := st.snapHeader signal
  let handlers := st.handlers
  handlers.foldl (fun acc h =>
    (List.range hdr.len).foldl (fun acc2 j =>
      let v := aread acc2.1 hdr.arr j
      (applyAOps (behav h signal v) acc2.1, acc2.2 ++ [(h, v)])) acc) (st, [])

end ABroadcast

/-- The concrete state for the C1 counterexample: one (inert-by-default)
handler, one signal `"s"` whose slice is the full backing array `[1, 2, 3]` —
the state produced by three `Watch`es (with exact-fit capacity). -/
def cexState : ABroadcast Unit Nat := ⟨[()], [[1, 2, 3]], [("s", ⟨0, 3⟩)]⟩

/-- The re-entrant behaviour for the C1 counterexample: on receiving payload
`1`, the handler calls `Unwatch("s", 1)`; otherwise it does nothing. -/
def cexBehav : Unit → String → Nat → List (AOp Unit Nat) :=
  fun _ _ v => if v = 1 then [AOp.unwatch "s" 1] else []

theorem getD_append_lt {α : Type _} (l l' : List α) (i : Nat) (d : α) (h : i < l.length) :
    (l ++ l').getD i d = l.getD i d := by
  simp [List.getD, List.getElem?_append, h]

theorem getD_set_ne {α : Type _} (l : List α) (i j : Nat) (v d : α) (h : i ≠ j) :
    (l.set i v).getD j d = l.getD j d := by
  simp [List.getD, List.getElem?_set, h]

theorem getD_set_self {α : Type _} (l : List α) (i : Nat) (v d : α) (h : i < l.length) :
    (l.set i v).getD i d = v := by
  simp [List.getD, List.getElem?_set, h]

theorem range_map_getD {α : Type _} [Inhabited α] (l : List α) :
    ∀ (n : Nat), n ≤ l.length →
      (List.range n).map (fun j => l.getD j default) = l.take n := by
  induction l with
  | nil =>
    intro n hn
    simp [Nat.le_zero.mp (by simpa using hn)]
  | cons x xs ih =>
    intro n hn
    cases n with
    | zero => simp
    | succ m =>
      simp only [List.range_succ_eq_map, List.map_cons, List.map_map, List.take_succ_cons,
        Function.comp_def, Nat.succ_eq_add_one, List.getD_cons_succ, List.getD_cons_zero]
      rw [ih m (Nat.le_of_succ_le_succ (by simpa using hn))]

theorem mem_mset {κ α : Type _} [DecidableEq κ] (m : List (κ × α)) (k : κ) (v : α)
    (x : κ × α) (hx : x ∈ mset m k v) : x = (k, v) ∨ x ∈ m := by
  induction m with
  | nil => simpa [mset] using hx
  | cons e rest ih =>
    obtain ⟨k', w⟩ := e
    by_cases hk : k' = k
    · rcases List.mem_cons.mp (by simpa [mset, hk] using hx) with h1 | h2
      · exact Or.inl h1
      · exact Or.inr (List.mem_cons_of_mem _ h2)
    · rcases List.mem_cons.mp (by simpa [mset, hk] using hx) with h1 | h2
      · exact Or.inr (by simp [h1])
      · rcases ih h2 with h3 | h4
        · exact Or.inl h3
        · exact Or.inr (List.mem_cons_of_mem _ h4)

theorem mem_mdel {κ α : Type _} [DecidableEq κ] (m : List (κ × α)) (k : κ)
    (x : κ × α) (hx : x ∈ mdel m k) : x ∈ m := by
  induction m with
  | nil => simp [mdel] at hx
  | cons e rest ih =>
    obtain ⟨k', w⟩ := e
    by_cases hk : k' = k
    · exact List.mem_cons_of_mem _ (ih (by simpa [mdel, hk] using hx))
    · rcases List.mem_cons.mp (by simpa [mdel, hk] using hx) with h1 | h2
      · simp [h1]
      · exact List.mem_cons_of_mem _ (ih h2)

/-- The state a running direct-registry broadcast of signal `s` relies on,
relative to the snapshot: the heap has not shrunk, the first `len0` cells of
the snapshot's backing array `arr0` still hold their snapshot values `base`,
and `arr0` is owned solely by signal `s`, whose slice never got shorter than
the snapshot. -/
def AInv {H T : Type} [Inhabited T] (s : String) (arr0 len0 heapLen0 : Nat)
    (base : List T) (st : ABroadcast H T) : Prop :=
  heapLen0 ≤ st.heap.length ∧
  (∀ j, j < len0 → ABroadcast.aread st arr0 j = base.getD j default) ∧
  (∀ p ∈ st.listeners, p.2.arr = arr0 → p.1 = s ∧ len0 ≤ p.2.len)

theorem ABroadcast.AWatch_absent {H T : Type} [DecidableEq T] [Inhabited T]
    (st : ABroadcast H T) (t : String) (d : T) (slack : Nat)
    (hlk : lookup? st.listeners t = none) :
    st.AWatch t d slack
      = { st with
          heap := st.heap ++ [d :: List.replicate slack default],
          listeners := mset st.listeners t ⟨st.heap.length, 1⟩ } := by
  unfold ABroadcast.AWatch
  rw [hlk]

theorem ABroadcast.AWatch_dup {H T : Type} [DecidableEq T] [Inhabited T]
    (st : ABroadcast H T) (t : String) (d : T) (slack : Nat) (hdr : GoSlice)
    (hlk : lookup? st.listeners t = some hdr)
    (hdup : ((st.aelems hdr).any fun x => decide (x = d)) = true) :
    st.AWatch t d slack = st := by
  unfold ABroadcast.AWatch
  rw [hlk]
  simp only [hdup, if_true]

theorem ABroadcast.AWatch_inplace {H T : Type} [DecidableEq T] [Inhabited T]
    (st : ABroadcast H T) (t : String) (d : T) (slack : Nat) (hdr : GoSlice)
    (hlk : lookup? st.listeners t = some hdr)
    (hdup : ((st.aelems hdr).any fun x => decide (x = d)) = false)
    (hip : hdr.len < st.acap hdr.arr) :
    st.AWatch t d slack
      = { st with
          heap := st.heap.set hdr.arr ((st.heap.getD hdr.arr []).set hdr.len d),
          listeners := mset st.listeners t ⟨hdr.arr, hdr.len + 1⟩ } := by
  unfold ABroadcast.AWatch
  rw [hlk]
  dsimp only
  rw [if_neg (by simp [hdup]), if_pos hip]
  rfl

theorem ABroadcast.AWatch_grow {H T : Type} [DecidableEq T] [Inhabited T]
    (st : ABroadcast H T) (t : String) (d : T) (slack : Nat) (hdr : GoSlice)
    (hlk : lookup? st.listeners t = some hdr)
    (hdup : ((st.aelems hdr).any fun x => decide (x = d)) = false)
    (hip : ¬ hdr.len < st.acap hdr.arr) :
    st.AWatch t d slack
      = { st with
          heap := st.heap ++ [st.aelems hdr ++ d :: List.replicate slack default],
          listeners := mset st.listeners t ⟨st.heap.length, hdr.len + 1⟩ } := by
  unfold ABroadcast.AWatch
  rw [hlk]
  dsimp only
  rw [if_neg (by simp [hdup]), if_neg hip]

theorem ABroadcast.AUnwatch_absent {H T : Type} [DecidableEq T] [Inhabited T]
    (st : ABroadcast H T) (t : String) (d : T)
    (hlk : lookup? st.listeners t = none) : st.AUnwatch t d = st := by
  unfold ABroadcast.AUnwatch
  rw [hlk]

theorem ABroadcast.AUnwatch_nomatch {H T : Type} [DecidableEq T] [Inhabited T]
    (st : ABroadcast H T) (t : String) (d : T) (hdr : GoSlice)
    (hlk : lookup? st.listeners t = some hdr)
    (hidx : (st.aelems hdr).findIdx? (fun x => decide (x = d)) = none) :
    st.AUnwatch t d = st := by
  unfold ABroadcast.AUnwatch
  rw [hlk]
  simp only [hidx]

theorem ABroadcast.AUnwatch_found_eq {H T : Type} [DecidableEq T] [Inhabited T]
    (st : ABroadcast H T) (t : String) (d : T) (hdr : GoSlice) (i : Nat)
    (hlk : lookup? st.listeners t = some hdr)
    (hidx : (st.aelems hdr).findIdx? (fun x => decide (x = d)) = some i) :
    st.AUnwatch t d
      = { st with
          heap := st.heap.set hdr.arr (spliceArr (st.heap.getD hdr.arr []) i hdr.len),
          listeners := mset st.listeners t ⟨hdr.arr, hdr.len - 1⟩ } := by
  unfold ABroadcast.AUnwatch
  rw [hlk]
  simp only [hidx]

theorem AInv_AWatch {H T : Type} [DecidableEq T] [Inhabited T]
    {s : String} {arr0 len0 heapLen0 : Nat} {base : List T}
    (harr : arr0 < heapLen0) {st : ABroadcast H T}
    (hinv : AInv s arr0 len0 heapLen0 base st) (t : String) (d : T) (slack : Nat) :
    AInv s arr0 len0 heapLen0 base (st.AWatch t d slack) := by
  obtain ⟨h1, h2, h3⟩ := hinv
  have harr' : arr0 < st.heap.length := lt_of_lt_of_le harr h1
  cases hlk : lookup? st.listeners t with
  | none =>
    rw [ABroadcast.AWatch_absent st t d slack hlk]
    refine ⟨le_trans h1 (by simp), ?_, ?_⟩
    · intro j hj
      unfold ABroadcast.aread
      rw [getD_append_lt _ _ _ _ harr']
      exact h2 j hj
    · intro p hp hparr
      rcases mem_mset _ _ _ _ hp with heq | hpm
      · exfalso
        have : p.2.arr = st.heap.length := by rw [heq]
        omega
      · exact h3 p hpm hparr
  | some hdr =>
    have hmem := lookup?_mem hlk
    cases hdup : ((st.aelems hdr).any fun x => decide (x = d)) with
    | true =>
      rw [ABroadcast.AWatch_dup st t d slack hdr hlk hdup]
      exact ⟨h1, h2, h3⟩
    | false =>
      by_cases hip : hdr.len < st.acap hdr.arr
      · rw [ABroadcast.AWatch_inplace st t d slack hdr hlk hdup hip]
        refine ⟨by simpa using h1, ?_, ?_⟩
        · intro j hj
          unfold ABroadcast.aread
          by_cases he : hdr.arr = arr0
          · subst he
            have hlen0 : len0 ≤ hdr.len := (h3 (t, hdr) hmem rfl).2
            rw [getD_set_self _ _ _ _ harr']
            rw [getD_set_ne _ _ _ _ _ (by omega)]
            exact h2 j hj
          · rw [getD_set_ne _ _ _ _ _ he]
            exact h2 j hj
        · intro p hp hparr
          rcases mem_mset _ _ _ _ hp with heq | hpm
          · subst heq
            simp only at hparr
            have hts : t = s ∧ len0 ≤ hdr.len := h3 (t, hdr) hmem hparr
            exact ⟨hts.1, le_trans hts.2 (Nat.le_succ _)⟩
          · exact h3 p hpm hparr
      · rw [ABroadcast.AWatch_grow st t d slack hdr hlk hdup hip]
        refine ⟨le_trans h1 (by simp), ?_, ?_⟩
        · intro j hj
          unfold ABroadcast.aread
          rw [getD_append_lt _ _ _ _ harr']
          exact h2 j hj
        · intro p hp hparr
          rcases mem_mset _ _ _ _ hp with heq | hpm
          · exfalso
            have : p.2.arr = st.heap.length := by rw [heq]
            omega
          · exact h3 p hpm hparr

theorem AInv_AUnwatch {H T : Type} [DecidableEq T] [Inhabited T]
    {s : String} {arr0 len0 heapLen0 : Nat} {base : List T}
    {st : ABroadcast H T}
    (hinv : AInv s arr0 len0 heapLen0 base st) (t : String) (d : T) (ht : t ≠ s) :
    AInv s arr0 len0 heapLen0 base (st.AUnwatch t d) := by
  obtain ⟨h1, h2, h3⟩ := hinv
  cases hlk : lookup? st.listeners t with
  | none =>
    rw [ABroadcast.AUnwatch_absent st t d hlk]
    exact ⟨h1, h2, h3⟩
  | some hdr =>
    cases hidx : (st.aelems hdr).findIdx? (fun x => decide (x = d)) with
    | none =>
      rw [ABroadcast.AUnwatch_nomatch st t d hdr hlk hidx]
      exact ⟨h1, h2, h3⟩
    | some i =>
      rw [ABroadcast.AUnwatch_found_eq st t d hdr i hlk hidx]
      have hne : hdr.arr ≠ arr0 := by
        intro he
        exact ht ((h3 (t, hdr) (lookup?_mem hlk) he).1)
      refine ⟨by simpa using h1, ?_, ?_⟩
      · intro j hj
        unfold ABroadcast.aread
        rw [getD_set_ne _ _ _ _ _ hne]
        exact h2 j hj
      · intro p hp hparr
        rcases mem_mset _ _ _ _ hp with heq | hpm
        · exfalso
          apply hne
          rw [heq] at hparr
          exact hparr
        · exact h3 p hpm hparr

theorem AInv_apply {H T : Type} [DecidableEq T] [Inhabited T]
    {s : String} {arr0 len0 heapLen0 : Nat} {base : List T}
    (harr : arr0 < heapLen0) {st : ABroadcast H T}
    (hinv : AInv s arr0 len0 heapLen0 base st) (op : AOp H T)
    (hop : op.isUnwatchOn s = false) :
    AInv s arr0 len0 heapLen0 base (op.apply st) := by
  obtain ⟨h1, h2, h3⟩ := hinv
  cases op with
  | handle h => exact ⟨h1, h2, h3⟩
  | watch t d slack => exact AInv_AWatch harr ⟨h1, h2, h3⟩ t d slack
  | unwatch t d =>
    have ht : t ≠ s := by simpa [AOp.isUnwatchOn] using hop
    exact AInv_AUnwatch ⟨h1, h2, h3⟩ t d ht
  | clean t =>
    exact ⟨h1, h2, fun p hp hparr => h3 p (mem_mdel _ _ _ hp) hparr⟩
  | cleanAll =>
    exact ⟨h1, h2, fun p hp => by simp [AOp.apply, ABroadcast.ACleanAll] at hp⟩

theorem AInv_applyAOps {H T : Type} [DecidableEq T] [Inhabited T]
    {s : String} {arr0 len0 heapLen0 : Nat} {base : List T}
    (harr : arr0 < heapLen0) :
    ∀ (ops : List (AOp H T)), (∀ op ∈ ops, op.isUnwatchOn s = false) →
    ∀ {st : ABroadcast H T}, AInv s arr0 len0 heapLen0 base st →
    AInv s arr0 len0 heapLen0 base (applyAOps ops st) := by
  intro ops
  induction ops with
  | nil => intro _ st hinv; exact hinv
  | cons op rest ih =>
    intro hops st hinv
    exact ih (fun o ho => hops o (List.mem_cons_of_mem _ ho))
      (AInv_apply harr hinv op (hops op (List.mem_cons_self _ _)))

/-- The inner broadcast loop of the aliased model: under the invariant, every
read at a snapshot index returns the snapshot value, and the invariant is
preserved across the handlers' re-entrant operations. -/
theorem ABroadcastRun_inner {H T : Type} [DecidableEq T] [Inhabited T]
    {s : String} {arr0 len0 heapLen0 : Nat} {base : List T}
    (harr : arr0 < heapLen0)
    (behav : H → String → T → List (AOp H T))
    (hno : ∀ (h : H) (sg : String) (v : T), ∀ op ∈ behav h sg v, AOp.isUnwatchOn s op = false)
    (h : H) :
    ∀ (js : List Nat) (st : ABroadcast H T) (acc : List (H × T)),
      AInv s arr0 len0 heapLen0 base st → (∀ j ∈ js, j < len0) →
      (js.foldl (fun acc2 j =>
          (applyAOps (behav h s (ABroadcast.aread acc2.1 arr0 j)) acc2.1,
            acc2.2 ++ [(h, ABroadcast.aread acc2.1 arr0 j)])) (st, acc)).2
        = acc ++ js.map (fun j => (h, base.getD j default)) ∧
      AInv s arr0 len0 heapLen0 base
        ((js.foldl (fun acc2 j =>
          (applyAOps (behav h s (ABroadcast.aread acc2.1 arr0 j)) acc2.1,
            acc2.2 ++ [(h, ABroadcast.aread acc2.1 arr0 j)])) (st, acc)).1) := by
  intro js
  induction js with
  | nil => intro st acc hinv _; exact ⟨by simp, hinv⟩
  | cons j rest ih =>
    intro st acc hinv hjs
    have hv : ABroadcast.aread st arr0 j = base.getD j default :=
      hinv.2.1 j (hjs j (List.mem_cons_self _ _))
    have hinv' : AInv s arr0 len0 heapLen0 base
        (applyAOps (behav h s (ABroadcast.aread st arr0 j)) st) :=
      AInv_applyAOps harr _ (hno h s _) hinv
    simp only [List.foldl_cons]
    obtain ⟨hsnd, hfst⟩ := ih (applyAOps (behav h s (ABroadcast.aread st arr0 j)) st)
      (acc ++ [(h, ABroadcast.aread st arr0 j)]) hinv'
      (fun j' hj' => hjs j' (List.mem_cons_of_mem _ hj'))
    refine ⟨?_, hfst⟩
    rw [hsnd, hv]
    simp

/-- The outer broadcast loop of the aliased model. -/
theorem ABroadcastRun_outer {H T : Type} [DecidableEq T] [Inhabited T]
    {s : String} {arr0 len0 heapLen0 : Nat} {base : List T}
    (harr : arr0 < heapLen0)
    (behav : H → String → T → List (AOp H T))
    (hno : ∀ (h : H) (sg : String) (v : T), ∀ op ∈ behav h sg v, AOp.isUnwatchOn s op = false) :
    ∀ (hl : List H) (st : ABroadcast H T) (acc : List (H × T)),
      AInv s arr0 len0 heapLen0 base st →
      (hl.foldl (fun acc2 h =>
          (List.range len0).foldl (fun acc3 j =>
            (applyAOps (behav h s (ABroadcast.aread acc3.1 arr0 j)) acc3.1,
              acc3.2 ++ [(h, ABroadcast.aread acc3.1 arr0 j)])) acc2) (st, acc)).2
        = acc ++ hl.flatMap
            (fun h => (List.range len0).map (fun j => (h, base.getD j default))) := by
  intro hl
  induction hl with
  | nil => intro st acc _; simp
  | cons h rest ih =>
    intro st acc hinv
    simp only [List.foldl_cons, List.flatMap_cons]
    obtain ⟨hsnd, hinv'⟩ := ABroadcastRun_inner harr behav hno h (List.range len0) st acc
      hinv (fun j hj => List.mem_range.mp hj)
    rw [show ((List.range len0).foldl (fun acc3 j =>
            (applyAOps (behav h s (ABroadcast.aread acc3.1 arr0 j)) acc3.1,
              acc3.2 ++ [(h, ABroadcast.aread acc3.1 arr0 j)])) (st, acc))
        = (((List.range len0).foldl (fun acc3 j =>
            (applyAOps (behav h s (ABroadcast.aread acc3.1 arr0 j)) acc3.1,
              acc3.2 ++ [(h, ABroadcast.aread acc3.1 arr0 j)])) (st, acc)).1,
           acc ++ (List.range len0).map (fun j => (h, base.getD j default)))
      from by rw [← hsnd]]
    rw [ih _ _ hinv']
    simp

/-- The aliased direct-registry broadcast delivers exactly the snapshot trace
whenever the handlers perform no re-entrant `Unwatch` on the broadcast signal
(re-entrant `Watch`, `Handle`, `Clean`, `CleanAll` and operations on other
signals are all allowed), given that the snapshot's backing array is owned
solely by that signal — which is how the registry builds its slices. -/
theorem ABroadcast.run_trace_of_no_unwatch {H T : Type} [DecidableEq T] [Inhabited T]
    (behav : H → String → T → List (AOp H T)) (st0 : ABroadcast H T) (s : String)
    (hdr0 : GoSlice)
    (hlk : lookup? st0.listeners s = some hdr0)
    (hbound : hdr0.arr < st0.heap.length)
    (hcap : hdr0.len ≤ st0.acap hdr0.arr)
    (hown : ∀ p ∈ st0.listeners, p.2.arr = hdr0.arr → p.1 = s ∧ hdr0.len ≤ p.2.len)
    (hno : ∀ (h : H) (sg : String) (v : T), ∀ op ∈ behav h sg v,
      AOp.isUnwatchOn s op = false) :
    (ABroadcast.ABroadcastRun behav st0 s).2 = ABroadcast.ABroadcastTrace st0 s := by
  have hshdr : st0.snapHeader s = hdr0 := by
    simp [ABroadcast.snapHeader, hlk]
  have hinv0 : AInv s hdr0.arr hdr0.len st0.heap.length (st0.heap.getD hdr0.arr []) st0 :=
    ⟨le_refl _, fun j hj => rfl, hown⟩
  unfold ABroadcast.ABroadcastRun
  rw [hshdr]
  rw [ABroadcastRun_outer hbound behav hno st0.handlers st0 [] hinv0]
  unfold ABroadcast.ABroadcastTrace ABroadcast.aelems
  rw [hshdr]
  have hconv : ∀ h : H,
      (List.range hdr0.len).map
          (fun j => (h, (st0.heap.getD hdr0.arr []).getD j default))
        = ((st0.heap.getD hdr0.arr []).take hdr0.len).map (fun v => (h, v)) := by
    intro h
    rw [← range_map_getD (st0.heap.getD hdr0.arr []) hdr0.len hcap, List.map_map]
    simp [Function.comp_def]
  rw [funext hconv]
  simp

/-- A broadcast of an absent signal reads nothing and delivers nothing,
whatever the handlers do. -/
theorem ABroadcast.run_trace_absent {H T : Type} [DecidableEq T] [Inhabited T]
    (behav : H → String → T → List (AOp H T)) (st0 : ABroadcast H T) (s : String)
    (hlk : lookup? st0.listeners s = none) :
    (ABroadcast.ABroadcastRun behav st0 s).2 = ABroadcast.ABroadcastTrace st0 s := by
  have hshdr : st0.snapHeader s = ⟨0, 0⟩ := by
    simp [ABroadcast.snapHeader, hlk]
  unfold ABroadcast.ABroadcastRun ABroadcast.ABroadcastTrace
  rw [hshdr]
  simp only [List.range_zero, List.foldl_nil, ABroadcast.aelems, List.take_zero,
    List.map_nil, List.flatMap_nil]
  rw [show st0.handlers.foldl
        (fun (acc2 : ABroadcast H T × List (H × T)) (_ : H) => acc2) (st0, []) = (st0, [])
    from List.foldl_fixed _]
  simp [List.flatMap]

/-- Inner broadcast loop of the aliased model: each iteration appends exactly
one invocation of handler `h`, whatever the heap holds. -/
theorem ABroadcastRun_inner_len {H T : Type} [DecidableEq T] [Inhabited T]
    (behav : H → String → T → List (AOp H T)) (s : String) (arr0 : Nat) (h : H) :
    ∀ (js : List Nat) (st : ABroadcast H T) (acc : List (H × T)),
      ((js.foldl (fun acc2 j =>
          (applyAOps (behav h s (ABroadcast.aread acc2.1 arr0 j)) acc2.1,
            acc2.2 ++ [(h, ABroadcast.aread acc2.1 arr0 j)])) (st, acc)).2).length
        = acc.length + js.length ∧
      ((js.foldl (fun acc2 j =>
          (applyAOps (behav h s (ABroadcast.aread acc2.1 arr0 j)) acc2.1,
            acc2.2 ++ [(h, ABroadcast.aread acc2.1 arr0 j)])) (st, acc)).2).map Prod.fst
        = acc.map Prod.fst ++ List.replicate js.length h := by
  intro js
  induction js with
  | nil => intro st acc; simp
  | cons j rest ih =>
    intro st acc
    simp only [List.foldl_cons]
    obtain ⟨ihl, ihm⟩ := ih (applyAOps (behav h s (ABroadcast.aread st arr0 j)) st)
      (acc ++ [(h, ABroadcast.aread st arr0 j)])
    constructor
    · rw [ihl]
      simp
      omega
    · rw [ihm]
      simp only [List.map_append, List.map_cons, List.map_nil, List.length_cons,
        List.append_assoc, List.singleton_append, ← List.replicate_succ]

/-- `Broadcast(signal)` of the aliased direct model performs exactly
`H * L` invocations — `L` the snapshot's listener count — with the handlers
in registration order, each `L` times in a row, no matter what re-entrant
operations the handlers perform. -/
theorem ABroadcast.run_length_fst {H T : Type} [DecidableEq T] [Inhabited T]
    (behav : H → String → T → List (AOp H T)) (st0 : ABroadcast H T) (s : String) :
    (ABroadcast.ABroadcastRun behav st0 s).2.length
      = st0.handlers.length * (st0.snapHeader s).len ∧
    (ABroadcast.ABroadcastRun behav st0 s).2.map Prod.fst
      = st0.handlers.flatMap (fun h => List.replicate (st0.snapHeader s).len h) := by
  unfold ABroadcast.ABroadcastRun
  suffices hgen : ∀ (hl : List H) (st : ABroadcast H T) (acc : List (H × T)),
      ((hl.foldl (fun acc2 h =>
          (List.range (st0.snapHeader s).len).foldl (fun acc3 j =>
            (applyAOps (behav h s (ABroadcast.aread acc3.1 (st0.snapHeader s).arr j)) acc3.1,
              acc3.2 ++ [(h, ABroadcast.aread acc3.1 (st0.snapHeader s).arr j)])) acc2)
          (st, acc)).2).length = acc.length + hl.length * (st0.snapHeader s).len ∧
      ((hl.foldl (fun acc2 h =>
          (List.range (st0.snapHeader s).len).foldl (fun acc3 j =>
            (applyAOps (behav h s (ABroadcast.aread acc3.1 (st0.snapHeader s).arr j)) acc3.1,
              acc3.2 ++ [(h, ABroadcast.aread acc3.1 (st0.snapHeader s).arr j)])) acc2)
          (st, acc)).2).map Prod.fst
        = acc.map Prod.fst
            ++ hl.flatMap (fun h => List.replicate (st0.snapHeader s).len h) by
    obtain ⟨hl, hm⟩ := hgen st0.handlers st0 []
    exact ⟨by simpa using hl, by simpa using hm⟩
  intro hl
  induction hl with
  | nil => intro st acc; simp
  | cons h rest ih =>
    intro st acc
    simp only [List.foldl_cons, List.flatMap_cons, List.length_cons]
    obtain ⟨hil, him⟩ := ABroadcastRun_inner_len behav s (st0.snapHeader s).arr h
      (List.range (st0.snapHeader s).len) st acc
    have hpair : ((List.range (st0.snapHeader s).len).foldl (fun acc3 j =>
            (applyAOps (behav h s (ABroadcast.aread acc3.1 (st0.snapHeader s).arr j)) acc3.1,
              acc3.2 ++ [(h, ABroadcast.aread acc3.1 (st0.snapHeader s).arr j)])) (st, acc))
        = (((List.range (st0.snapHeader s).len).foldl (fun acc3 j =>
            (applyAOps (behav h s (ABroadcast.aread acc3.1 (st0.snapHeader s).arr j)) acc3.1,
              acc3.2 ++ [(h, ABroadcast.aread acc3.1 (st0.snapHeader s).arr j)])) (st, acc)).1,
           ((List.range (st0.snapHeader s).len).foldl (fun acc3 j =>
            (applyAOps (behav h s (ABroadcast.aread acc3.1 (st0.snapHeader s).arr j)) acc3.1,
              acc3.2 ++ [(h, ABroadcast.aread acc3.1 (st0.snapHeader s).arr j)])) (st, acc)).2) :=
      rfl
    rw [hpair]
    obtain ⟨ihl, ihm⟩ := ih _ (((List.range (st0.snapHeader s).len).foldl (fun acc3 j =>
            (applyAOps (behav h s (ABroadcast.aread acc3.1 (st0.snapHeader s).arr j)) acc3.1,
              acc3.2 ++ [(h, ABroadcast.aread acc3.1 (st0.snapHeader s).arr j)])) (st, acc)).2)
    constructor
    · rw [ihl, hil]
      simp
      ring
    · rw [ihm, him]
      simp

/-! ## The claims -/

/-- C1 counterexample: the claim fails on the direct registry.  In the state
with one handler and listeners `[1, 2, 3]` of `"s"` (slice = full backing
array), a handler that re-entrantly calls `Unwatch("s", 1)` on its first
invocation makes that same `Broadcast("s")` deliver `1, 3, 3` instead of the
snapshot's `1, 2, 3`: the source's `Unwatch` splices the slice in place
(`append(listeners[:i], listeners[i+1:]...)`), and `Broadcast` iterates the
uncopied snapshot header over the same backing array. -/
theorem claim_C1_counterexample :
    (ABroadcast.ABroadcastRun cexBehav cexState "s").2
        = [((), 1), ((), 3), ((), 3)] ∧
    ABroadcast.ABroadcastTrace cexState "s" = [((), 1), ((), 2), ((), 3)] ∧
    ¬ (ABroadcast.ABroadcastRun cexBehav cexState "s").2
        = ABroadcast.ABroadcastTrace cexState "s" := by
  refine ⟨by decide, by decide, by decide⟩

/-- C1 (amended): for the keyed registry the claim holds in full — the
(handler, payload) trace of one `Broadcast(s)` equals the trace computed from
the snapshot alone, whatever re-entrant mutations (`Watch`/`Unwatch`
included) the handlers perform.  For the direct registry it holds provided no
handler re-entrantly calls `Unwatch(s, ·)` during that broadcast: re-entrant
`Watch` (any signal, any reallocation slack), `Handle`, `Clean`, `CleanAll`
and `Unwatch` on other signals leave the delivered trace snapshot-determined,
but a re-entrant `Unwatch(s, ·)` splices the backing array shared with the
uncopied snapshot and can change the payloads the same broadcast still
delivers.  (The `hown` hypothesis — the snapshot's backing array belongs to
signal `s` alone — is how the registry's own appends build slices.) -/
theorem claim_C1_broadcast_snapshot_determined {H T K T2 : Type}
    [DecidableEq T] [DecidableEq K] [Inhabited T] :
    (∀ (stepK : H → String → T2 → UniqueBroadcast H K T2 → UniqueBroadcast H K T2)
        (bK : UniqueBroadcast H K T2) (sK : String),
        (UniqueBroadcast.BroadcastRun stepK bK sK).2
          = UniqueBroadcast.BroadcastTrace bK sK) ∧
    (∀ (behav : H → String → T → List (AOp H T)) (st0 : ABroadcast H T) (s : String)
        (hdr0 : GoSlice),
        lookup? st0.listeners s = some hdr0 →
        hdr0.arr < st0.heap.length →
        hdr0.len ≤ st0.acap hdr0.arr →
        (∀ p ∈ st0.listeners, p.2.arr = hdr0.arr → p.1 = s ∧ hdr0.len ≤ p.2.len) →
        (∀ (h : H) (sg : String) (v : T), ∀ op ∈ behav h sg v,
          AOp.isUnwatchOn s op = false) →
        (ABroadcast.ABroadcastRun behav st0 s).2 = ABroadcast.ABroadcastTrace st0 s) ∧
    (∀ (behav : H → String → T → List (AOp H T)) (st0 : ABroadcast H T) (s : String),
        lookup? st0.listeners s = none →
        (ABroadcast.ABroadcastRun behav st0 s).2 = ABroadcast.ABroadcastTrace st0 s) :=
  ⟨fun stepK bK sK => UniqueBroadcast.ubroadcastRun_trace stepK bK sK,
   ABroadcast.run_trace_of_no_unwatch,
   ABroadcast.run_trace_absent⟩

/-- C1 witness: the amended theorem at the counterexample's state but with a
handler that re-entrantly *watches* a new listener instead: the delivered
trace is exactly the snapshot trace. -/
theorem claim_C1_witness :
    (ABroadcast.ABroadcastRun (fun _ _ _ => [AOp.watch "s" 99 0]) cexState "s").2
      = ABroadcast.ABroadcastTrace cexState "s" :=
  (@claim_C1_broadcast_snapshot_determined Unit Nat Nat Nat _ _ _).2.1
    (fun _ _ _ => [AOp.watch "s" 99 0]) cexState "s" ⟨0, 3⟩
    (by decide) (by decide) (by decide) (by decide)
    (fun h sg v op hop => by
      have : op = AOp.watch "s" 99 0 := by simpa using hop
      rw [this]
      rfl)

/-- C2: with `H` handlers and `L` listeners under signal `s` at snapshot
time, `Broadcast(s)` performs exactly `H * L` invocations, handlers in
registration order (each running through all `L` snapshot slots before the
next handler starts), for each handler the listeners in their snapshot
order; handler return values are discarded and nothing alters this count and
order — for the direct registry this is stated on the aliasing-faithful model
under arbitrary re-entrant behaviour (re-entrant `Unwatch` can alter
delivered payload values, C1, but not the count or order), with the full
payload trace pinned down for effect-free handlers; for the keyed registry
the full trace equality holds under arbitrary re-entrancy. -/
theorem claim_C2_broadcast_fanout {H T K T2 : Type}
    [DecidableEq T] [DecidableEq K] [Inhabited T]
    (behav : H → String → T → List (AOp H T)) (st : ABroadcast H T) (sA : String)
    (bD : Broadcast H T) (sD : String)
    (stepK : H → String → T2 → UniqueBroadcast H K T2 → UniqueBroadcast H K T2)
    (bK : UniqueBroadcast H K T2) (sK : String) :
    ((ABroadcast.ABroadcastRun behav st sA).2.length
        = st.handlers.length * st.AWatchCount sA ∧
      (ABroadcast.ABroadcastRun behav st sA).2.map Prod.fst
        = st.handlers.flatMap (fun h => List.replicate (st.AWatchCount sA) h)) ∧
    ((Broadcast.BroadcastRun (fun _ _ _ b => b) bD sD).2
        = bD.handlers.flatMap (fun h => (bD.sigListeners sD).map (fun d => (h, d))) ∧
      (Broadcast.BroadcastTrace bD sD).length
        = bD.handlers.length * bD.WatchCount sD) ∧
    ((UniqueBroadcast.BroadcastRun stepK bK sK).2.length
        = bK.handlers.length * bK.WatchCount sK ∧
      (UniqueBroadcast.BroadcastRun stepK bK sK).2
        = bK.handlers.flatMap
            (fun h => (bK.sigListeners sK).map (fun d => (h, d.value)))) := by
  refine ⟨⟨?_, ?_⟩, ⟨?_, ?_⟩, ⟨?_, ?_⟩⟩
  · exact (ABroadcast.run_length_fst behav st sA).1
  · exact (ABroadcast.run_length_fst behav st sA).2
  · rw [Broadcast.broadcastRun_trace]
    rfl
  · exact length_flatMap_map _ _ _
  · rw [UniqueBroadcast.ubroadcastRun_trace]
    exact length_flatMap_map _ _ _
  · rw [UniqueBroadcast.ubroadcastRun_trace]
    rfl

/-- C3: in every reachable state of either registry no two listener entries of
a signal share a deduplication identity (the handle value for the direct
registry, the `Unique()` key for the keyed one); and `Watch(s, p)` twice gives
the same state — hence the same listener list and `WatchCount(s)` — as once
(this idempotence holds in every state, reachable or not). -/
theorem claim_C3_dedup_identity_unique {H T K T2 : Type} [DecidableEq T] [DecidableEq K]
    (bD : Broadcast H T) (hD : DReachable bD)
    (bK : UniqueBroadcast H K T2) (hK : UReachable bK)
    (b1 : Broadcast H T) (s1 : String) (d1 : T)
    (b2 : UniqueBroadcast H K T2) (s2 : String) (d2 : Uniquer K T2) :
    DInv bD ∧ UInv bK ∧
    (b1.Watch s1 d1).Watch s1 d1 = b1.Watch s1 d1 ∧
    ((b1.Watch s1 d1).Watch s1 d1).WatchCount s1 = (b1.Watch s1 d1).WatchCount s1 ∧
    (b2.Watch s2 d2).Watch s2 d2 = b2.Watch s2 d2 ∧
    ((b2.Watch s2 d2).Watch s2 d2).WatchCount s2 = (b2.Watch s2 d2).WatchCount s2 :=
  ⟨Broadcast.dinv_of_reachable hD, UniqueBroadcast.uinv_of_reachable hK,
   Broadcast.Watch_idem b1 s1 d1,
   congrArg (fun b => Broadcast.WatchCount b s1) (Broadcast.Watch_idem b1 s1 d1),
   UniqueBroadcast.uWatch_idem b2 s2 d2,
   congrArg (fun b => UniqueBroadcast.WatchCount b s2) (UniqueBroadcast.uWatch_idem b2 s2 d2)⟩

/-- C3 witness: the theorem instantiated at the zero-value direct registry and
the `NewUnique()` keyed registry, with concrete signals and payloads. -/
theorem claim_C3_witness :
    DInv (Broadcast.zeroValue : Broadcast Unit Nat) ∧
    UInv (UniqueBroadcast.New : UniqueBroadcast Unit Nat Nat) ∧
    ((Broadcast.zeroValue : Broadcast Unit Nat).Watch "s" 5).Watch "s" 5
      = (Broadcast.zeroValue : Broadcast Unit Nat).Watch "s" 5 ∧
    (((Broadcast.zeroValue : Broadcast Unit Nat).Watch "s" 5).Watch "s" 5).WatchCount "s"
      = ((Broadcast.zeroValue : Broadcast Unit Nat).Watch "s" 5).WatchCount "s" ∧
    ((UniqueBroadcast.New : UniqueBroadcast Unit Nat Nat).Watch "t" ⟨1, 2⟩).Watch "t" ⟨1, 2⟩
      = (UniqueBroadcast.New : UniqueBroadcast Unit Nat Nat).Watch "t" ⟨1, 2⟩ ∧
    (((UniqueBroadcast.New : UniqueBroadcast Unit Nat Nat).Watch "t" ⟨1, 2⟩).Watch
        "t" ⟨1, 2⟩).WatchCount "t"
      = ((UniqueBroadcast.New : UniqueBroadcast Unit Nat Nat).Watch "t" ⟨1, 2⟩).WatchCount "t" :=
  claim_C3_dedup_identity_unique Broadcast.zeroValue DReachable.zero
    UniqueBroadcast.New UReachable.new
    Broadcast.zeroValue "s" 5 UniqueBroadcast.New "t" ⟨1, 2⟩

/-- C4: in the keyed registry, from a signal with no listeners, watching
`keyed(K, v1)` and then `keyed(K, v2)` (same key, any payloads) leaves
`WatchCount(s) = 1`; the second `Watch` is a complete no-op (the state is
unchanged), the retained entry is the first capability, and
`Broadcast(s)` delivers the first capability's payload `v1` to every
handler, not `v2`. -/
theorem claim_C4_keyed_dedup_keeps_first {H K T : Type} [DecidableEq K]
    (hs : List H) (s : String) (k : K) (v1 v2 : T) :
    ((((⟨hs, none⟩ : UniqueBroadcast H K T).Watch s ⟨k, v1⟩).Watch s ⟨k, v2⟩).WatchCount s
        = 1) ∧
    (((⟨hs, none⟩ : UniqueBroadcast H K T).Watch s ⟨k, v1⟩).Watch s ⟨k, v2⟩
        = (⟨hs, none⟩ : UniqueBroadcast H K T).Watch s ⟨k, v1⟩) ∧
    ((((⟨hs, none⟩ : UniqueBroadcast H K T).Watch s ⟨k, v1⟩).Watch s ⟨k, v2⟩).sigListeners s
        = [⟨k, v1⟩]) ∧
    (UniqueBroadcast.BroadcastTrace
        (((⟨hs, none⟩ : UniqueBroadcast H K T).Watch s ⟨k, v1⟩).Watch s ⟨k, v2⟩) s
        = hs.map (fun h => (h, v1))) := by
  have h1 := UniqueBroadcast.watch_fresh hs s (⟨k, v1⟩ : Uniquer K T)
  have hsig : ((⟨hs, none⟩ : UniqueBroadcast H K T).Watch s ⟨k, v1⟩).sigListeners s
      = [⟨k, v1⟩] := by
    rw [h1]
    simp [UniqueBroadcast.sigListeners]
  have h2 : ((⟨hs, none⟩ : UniqueBroadcast H K T).Watch s ⟨k, v1⟩).Watch s ⟨k, v2⟩
      = (⟨hs, none⟩ : UniqueBroadcast H K T).Watch s ⟨k, v1⟩ :=
    UniqueBroadcast.uWatch_duplicate _ s ⟨k, v2⟩ ⟨⟨k, v1⟩, by simp [hsig], rfl⟩
  refine ⟨?_, h2, ?_, ?_⟩
  · rw [h2, h1]
    simp [UniqueBroadcast.WatchCount]
  · rw [h2, hsig]
  · rw [h2]
    unfold UniqueBroadcast.BroadcastTrace
    rw [hsig]
    have : ((⟨hs, none⟩ : UniqueBroadcast H K T).Watch s ⟨k, v1⟩).handlers = hs := by
      rw [h1]
    rw [this]
    simpa using flatMap_singleton_map hs (fun h => (h, v1))

/-- C5: for both registries, in any state, `Unwatch(s, p)` removes at most one
listener entry — the first (in insertion order) whose deduplication identity
equals `p`'s — keeping the relative order of the others (the listener list
becomes `l1 ++ l2` when it was `l1 ++ [match] ++ l2` with no match in `l1`),
leaving every other signal and the handlers untouched and dropping
`WatchCount(s)` by exactly one; when nothing under `s` matches, or `s` has no
entries at all, the whole state is unchanged. -/
theorem claim_C5_unwatch_removes_first_match {H T K T2 : Type}
    [DecidableEq T] [DecidableEq K] :
    (∀ (b : Broadcast H T) (s : String) (d : T),
        lookup? (b.listeners.getD []) s = none → b.Unwatch s d = b) ∧
    (∀ (b : Broadcast H T) (s : String) (d : T) (l : List T),
        lookup? (b.listeners.getD []) s = some l → (∀ x ∈ l, x ≠ d) →
        b.Unwatch s d = b) ∧
    (∀ (b : Broadcast H T) (s : String) (d : T) (l1 l2 : List T),
        lookup? (b.listeners.getD []) s = some (l1 ++ d :: l2) →
        (∀ x ∈ l1, x ≠ d) →
        (b.Unwatch s d).sigListeners s = l1 ++ l2 ∧
        (∀ s', s' ≠ s →
          lookup? ((b.Unwatch s d).listeners.getD []) s'
            = lookup? (b.listeners.getD []) s') ∧
        (b.Unwatch s d).handlers = b.handlers ∧
        (b.Unwatch s d).WatchCount s + 1 = b.WatchCount s) ∧
    (∀ (b : UniqueBroadcast H K T2) (s : String) (d : Uniquer K T2),
        lookup? (b.listeners.getD []) s = none → b.Unwatch s d = b) ∧
    (∀ (b : UniqueBroadcast H K T2) (s : String) (d : Uniquer K T2)
        (l : List (Uniquer K T2)),
        lookup? (b.listeners.getD []) s = some l →
        (∀ x ∈ l, x.unique ≠ d.unique) → b.Unwatch s d = b) ∧
    (∀ (b : UniqueBroadcast H K T2) (s : String) (d u : Uniquer K T2)
        (l1 l2 : List (Uniquer K T2)),
        lookup? (b.listeners.getD []) s = some (l1 ++ u :: l2) →
        u.unique = d.unique → (∀ x ∈ l1, x.unique ≠ d.unique) →
        (b.Unwatch s d).sigListeners s = l1 ++ l2 ∧
        (∀ s', s' ≠ s →
          lookup? ((b.Unwatch s d).listeners.getD []) s'
            = lookup? (b.listeners.getD []) s') ∧
        (b.Unwatch s d).handlers = b.handlers ∧
        (b.Unwatch s d).WatchCount s + 1 = b.WatchCount s) := by
  refine ⟨Broadcast.Unwatch_absent, Broadcast.Unwatch_not_found, ?_,
    UniqueBroadcast.uUnwatch_absent, UniqueBroadcast.uUnwatch_not_found, ?_⟩
  · intro b s d l1 l2 hl h1
    have hq := Broadcast.Unwatch_found b s d l1 l2 hl h1
    refine ⟨?_, ?_, ?_, ?_⟩
    · rw [hq]
      simp [Broadcast.sigListeners, lookup?_mset_self]
    · intro s' hs'
      rw [hq]
      simp only [Option.getD_some]
      exact lookup?_mset_ne _ _ _ _ hs'
    · rw [hq]
    · rw [hq]
      simp [Broadcast.WatchCount, lookup?_mset_self, hl]
      omega
  · intro b s d u l1 l2 hl hu h1
    have hq := UniqueBroadcast.uUnwatch_found b s d u l1 l2 hl hu h1
    refine ⟨?_, ?_, ?_, ?_⟩
    · rw [hq]
      simp [UniqueBroadcast.sigListeners, lookup?_mset_self]
    · intro s' hs'
      rw [hq]
      simp only [Option.getD_some]
      exact lookup?_mset_ne _ _ _ _ hs'
    · rw [hq]
    · rw [hq]
      simp [UniqueBroadcast.WatchCount, lookup?_mset_self, hl]
      omega

/-- C5 witness: the removal clause of the theorem at a concrete state — a
direct registry with listeners `[1, 2, 3]` where unwatching `2` yields
`[1, 3]`, and the keyed analogue where unwatching key `2` keeps order. -/
theorem claim_C5_witness :
    ((⟨[], some [("a", [1, 2, 3])]⟩ : Broadcast Unit Nat).Unwatch "a" 2).sigListeners "a"
        = [1, 3] ∧
    ((⟨[], some [("a", [⟨1, 10⟩, ⟨2, 20⟩, ⟨3, 30⟩])]⟩ :
        UniqueBroadcast Unit Nat Nat).Unwatch "a" ⟨2, 99⟩).sigListeners "a"
        = [⟨1, 10⟩, ⟨3, 30⟩] :=
  ⟨((@claim_C5_unwatch_removes_first_match Unit Nat Nat Nat _ _).2.2.1
      ⟨[], some [("a", [1, 2, 3])]⟩ "a" 2 [1] [3] (by simp) (by decide)).1,
   ((@claim_C5_unwatch_removes_first_match Unit Nat Nat Nat _ _).2.2.2.2.2
      ⟨[], some [("a", [⟨1, 10⟩, ⟨2, 20⟩, ⟨3, 30⟩])]⟩ "a" ⟨2, 99⟩ ⟨2, 20⟩
      [⟨1, 10⟩] [⟨3, 30⟩] (by simp) rfl (by decide)).1⟩

/-- C6: every public operation of both registries is total — modelled by the
checked variants of the only two operations that perform a Go map assignment
(`Watch`, `Unwatch`), whose panic case (`none`) is never reached, in any
state, including the zero value with `nil` structures; unknown signals,
duplicate watches and unwatching an absent listener are no-ops; the listener
map is created lazily by the first `Watch`; `Clean` on the zero value leaves
it unchanged. -/
theorem claim_C6_total_operations {H T K T2 : Type} [DecidableEq T] [DecidableEq K] :
    (∀ (b : Broadcast H T) (s : String) (d : T),
        b.WatchChecked s d = some (b.Watch s d) ∧
        b.UnwatchChecked s d = some (b.Unwatch s d)) ∧
    (∀ (b : Broadcast H T) (s : String) (d : T),
        lookup? (b.listeners.getD []) s = none →
        b.Unwatch s d = b ∧ b.WatchCount s = 0 ∧ b.HasWatch s = false) ∧
    (∀ (b : Broadcast H T) (s : String) (d : T),
        d ∈ b.sigListeners s → b.Watch s d = b) ∧
    (∀ (hs : List H) (s : String) (d : T),
        ((⟨hs, none⟩ : Broadcast H T).Watch s d).listeners = some [(s, [d])]) ∧
    (∀ s : String, (Broadcast.zeroValue : Broadcast H T).Clean s = Broadcast.zeroValue) ∧
    (∀ (b : UniqueBroadcast H K T2) (s : String) (d : Uniquer K T2),
        b.WatchChecked s d = some (b.Watch s d) ∧
        b.UnwatchChecked s d = some (b.Unwatch s d)) ∧
    (∀ (b : UniqueBroadcast H K T2) (s : String) (d : Uniquer K T2),
        lookup? (b.listeners.getD []) s = none →
        b.Unwatch s d = b ∧ b.WatchCount s = 0 ∧ b.HasWatch s = false) ∧
    (∀ (b : UniqueBroadcast H K T2) (s : String) (d : Uniquer K T2),
        (∃ u ∈ b.sigListeners s, u.unique = d.unique) → b.Watch s d = b) ∧
    (∀ (hs : List H) (s : String) (d : Uniquer K T2),
        ((⟨hs, none⟩ : UniqueBroadcast H K T2).Watch s d).listeners = some [(s, [d])]) ∧
    (∀ s : String,
        (UniqueBroadcast.zeroValue : UniqueBroadcast H K T2).Clean s
          = UniqueBroadcast.zeroValue) := by
  refine ⟨fun b s d => ⟨Broadcast.watchChecked_eq b s d, Broadcast.unwatchChecked_eq b s d⟩,
    ?_, Broadcast.Watch_duplicate, ?_, fun s => rfl,
    fun b s d => ⟨UniqueBroadcast.uwatchChecked_eq b s d,
      UniqueBroadcast.uunwatchChecked_eq b s d⟩,
    ?_, UniqueBroadcast.uWatch_duplicate, ?_, fun s => rfl⟩
  · intro b s d hl
    refine ⟨Broadcast.Unwatch_absent b s d hl, ?_, ?_⟩
    · simp [Broadcast.WatchCount, hl]
    · simp [Broadcast.HasWatch, hl]
  · intro hs s d
    unfold Broadcast.Watch
    simp [mset]
  · intro b s d hl
    refine ⟨UniqueBroadcast.uUnwatch_absent b s d hl, ?_, ?_⟩
    · simp [UniqueBroadcast.WatchCount, hl]
    · simp [UniqueBroadcast.HasWatch, hl]
  · intro hs s d
    unfold UniqueBroadcast.Watch
    simp [mset]

/-- C6 witness: the totality and no-op clauses at the zero-value registries
with an unknown signal and a concrete payload. -/
theorem claim_C6_witness :
    ((Broadcast.zeroValue : Broadcast Unit Nat).WatchChecked "s" 3
        = some ((Broadcast.zeroValue : Broadcast Unit Nat).Watch "s" 3) ∧
      (Broadcast.zeroValue : Broadcast Unit Nat).UnwatchChecked "s" 3
        = some ((Broadcast.zeroValue : Broadcast Unit Nat).Unwatch "s" 3)) ∧
    ((Broadcast.zeroValue : Broadcast Unit Nat).Unwatch "s" 3 = Broadcast.zeroValue ∧
      (Broadcast.zeroValue : Broadcast Unit Nat).WatchCount "s" = 0 ∧
      (Broadcast.zeroValue : Broadcast Unit Nat).HasWatch "s" = false) ∧
    ((UniqueBroadcast.zeroValue : UniqueBroadcast Unit Nat Nat).Watch "s" ⟨1, 2⟩).listeners
        = some [("s", [⟨1, 2⟩])] :=
  ⟨(@claim_C6_total_operations Unit Nat Nat Nat _ _).1 Broadcast.zeroValue "s" 3,
   (@claim_C6_total_operations Unit Nat Nat Nat _ _).2.1 Broadcast.zeroValue "s" 3 rfl,
   (@claim_C6_total_operations Unit Nat Nat Nat _ _).2.2.2.2.2.2.2.2.1 [] "s" ⟨1, 2⟩⟩

/-- C7: for both registries, in every state and for every signal,
`HasWatch(s)` is true exactly when `WatchCount(s) > 0`; a present-but-empty
listener list and an absent signal both give `HasWatch = false` and
`WatchCount = 0`, so the two are indistinguishable to these queries. -/
theorem claim_C7_hasWatch_iff_count_pos {H T K T2 : Type} [DecidableEq T] [DecidableEq K]
    (bD : Broadcast H T) (sD : String) (bK : UniqueBroadcast H K T2) (sK : String) :
    (bD.HasWatch sD = decide (0 < bD.WatchCount sD)) ∧
    (lookup? (bD.listeners.getD []) sD = none →
      bD.HasWatch sD = false ∧ bD.WatchCount sD = 0) ∧
    (lookup? (bD.listeners.getD []) sD = some [] →
      bD.HasWatch sD = false ∧ bD.WatchCount sD = 0) ∧
    (bK.HasWatch sK = decide (0 < bK.WatchCount sK)) ∧
    (lookup? (bK.listeners.getD []) sK = none →
      bK.HasWatch sK = false ∧ bK.WatchCount sK = 0) ∧
    (lookup? (bK.listeners.getD []) sK = some [] →
      bK.HasWatch sK = false ∧ bK.WatchCount sK = 0) := by
  refine ⟨?_, ?_, ?_, ?_, ?_, ?_⟩
  · unfold Broadcast.HasWatch Broadcast.WatchCount
    cases lookup? (bD.listeners.getD []) sD <;> simp
  · intro hl
    constructor <;> simp [Broadcast.HasWatch, Broadcast.WatchCount, hl]
  · intro hl
    constructor <;> simp [Broadcast.HasWatch, Broadcast.WatchCount, hl]
  · unfold UniqueBroadcast.HasWatch UniqueBroadcast.WatchCount
    cases lookup? (bK.listeners.getD []) sK <;> simp
  · intro hl
    constructor <;> simp [UniqueBroadcast.HasWatch, UniqueBroadcast.WatchCount, hl]
  · intro hl
    constructor <;> simp [UniqueBroadcast.HasWatch, UniqueBroadcast.WatchCount, hl]

/-- C7 witness: the theorem at a direct registry holding an empty listener
list for `"a"` (after its only listener was unwatched) and at an absent-signal
keyed registry. -/
theorem claim_C7_witness :
    ((⟨[], some [("a", [])]⟩ : Broadcast Unit Nat).HasWatch "a"
        = decide (0 < (⟨[], some [("a", [])]⟩ : Broadcast Unit Nat).WatchCount "a")) ∧
    ((⟨[], some [("a", [])]⟩ : Broadcast Unit Nat).HasWatch "a" = false ∧
      (⟨[], some [("a", [])]⟩ : Broadcast Unit Nat).WatchCount "a" = 0) ∧
    ((UniqueBroadcast.zeroValue : UniqueBroadcast Unit Nat Nat).HasWatch "b" = false ∧
      (UniqueBroadcast.zeroValue : UniqueBroadcast Unit Nat Nat).WatchCount "b" = 0) :=
  ⟨(claim_C7_hasWatch_iff_count_pos ⟨[], some [("a", [])]⟩ "a"
      (UniqueBroadcast.zeroValue : UniqueBroadcast Unit Nat Nat) "b").1,
   (claim_C7_hasWatch_iff_count_pos ⟨[], some [("a", [])]⟩ "a"
      (UniqueBroadcast.zeroValue : UniqueBroadcast Unit Nat Nat) "b").2.2.1 (by decide),
   (claim_C7_hasWatch_iff_count_pos (⟨[], some [("a", [])]⟩ : Broadcast Unit Nat) "a"
      (UniqueBroadcast.zeroValue : UniqueBroadcast Unit Nat Nat) "b").2.2.2.2.1 rfl⟩

/-- C8: for both registries, `Clean(a)` removes only signal `a`'s partition —
every other signal's listener list, hence its `WatchCount`, is unchanged —
and neither `Clean` nor `CleanAll` touches the handler sequence; moreover the
handler sequence's length is monotone under every single mutating operation
and under any sequence of them (a broadcast's state effect is the sequence of
re-entrant operations its handlers perform, so it is covered). -/
theorem claim_C8_clean_scoping_handlers_monotone {H T K T2 : Type}
    [DecidableEq T] [DecidableEq K] :
    (∀ (b : Broadcast H T) (a b' : String), b' ≠ a →
        (b.Clean a).WatchCount b' = b.WatchCount b' ∧
        lookup? ((b.Clean a).listeners.getD []) b' = lookup? (b.listeners.getD []) b') ∧
    (∀ (b : Broadcast H T) (a : String), (b.Clean a).handlers = b.handlers) ∧
    (∀ b : Broadcast H T, b.CleanAll.handlers = b.handlers) ∧
    (∀ (b : Broadcast H T) (op : DOp H T),
        b.handlers.length ≤ (op.apply b).handlers.length) ∧
    (∀ (b : Broadcast H T) (ops : List (DOp H T)),
        b.handlers.length ≤ (ops.foldl (fun st op => op.apply st) b).handlers.length) ∧
    (∀ (b : UniqueBroadcast H K T2) (a b' : String), b' ≠ a →
        (b.Clean a).WatchCount b' = b.WatchCount b' ∧
        lookup? ((b.Clean a).listeners.getD []) b' = lookup? (b.listeners.getD []) b') ∧
    (∀ (b : UniqueBroadcast H K T2) (a : String), (b.Clean a).handlers = b.handlers) ∧
    (∀ b : UniqueBroadcast H K T2, b.CleanAll.handlers = b.handlers) ∧
    (∀ (b : UniqueBroadcast H K T2) (op : UOp H K T2),
        b.handlers.length ≤ (op.apply b).handlers.length) ∧
    (∀ (b : UniqueBroadcast H K T2) (ops : List (UOp H K T2)),
        b.handlers.length ≤ (ops.foldl (fun st op => op.apply st) b).handlers.length) := by
  have hdc : ∀ (b : Broadcast H T) (a b' : String), b' ≠ a →
      lookup? ((b.Clean a).listeners.getD []) b' = lookup? (b.listeners.getD []) b' := by
    intro b a b' hne
    unfold Broadcast.Clean
    cases b.listeners with
    | none => rfl
    | some m =>
      simp only [Option.map_some', Option.getD_some]
      exact lookup?_mdel_ne _ _ _ hne
  have hkc : ∀ (b : UniqueBroadcast H K T2) (a b' : String), b' ≠ a →
      lookup? ((b.Clean a).listeners.getD []) b' = lookup? (b.listeners.getD []) b' := by
    intro b a b' hne
    unfold UniqueBroadcast.Clean
    cases b.listeners with
    | none => rfl
    | some m =>
      simp only [Option.map_some', Option.getD_some]
      exact lookup?_mdel_ne _ _ _ hne
  have hdop : ∀ (b : Broadcast H T) (op : DOp H T),
      b.handlers.length ≤ (op.apply b).handlers.length := by
    intro b op
    cases op <;> simp [DOp.apply]
  have hkop : ∀ (b : UniqueBroadcast H K T2) (op : UOp H K T2),
      b.handlers.length ≤ (op.apply b).handlers.length := by
    intro b op
    cases op <;> simp [UOp.apply]
  have hdops : ∀ (ops : List (DOp H T)) (b : Broadcast H T),
      b.handlers.length ≤ (ops.foldl (fun st op => op.apply st) b).handlers.length := by
    intro ops
    induction ops with
    | nil => intro b; simp
    | cons op rest ih =>
      intro b
      exact le_trans (hdop b op) (ih (op.apply b))
  have hkops : ∀ (ops : List (UOp H K T2)) (b : UniqueBroadcast H K T2),
      b.handlers.length ≤ (ops.foldl (fun st op => op.apply st) b).handlers.length := by
    intro ops
    induction ops with
    | nil => intro b; simp
    | cons op rest ih =>
      intro b
      exact le_trans (hkop b op) (ih (op.apply b))
  refine ⟨?_, fun b a => rfl, fun b => rfl, hdop, fun b ops => hdops ops b,
    ?_, fun b a => rfl, fun b => rfl, hkop, fun b ops => hkops ops b⟩
  · intro b a b' hne
    refine ⟨?_, hdc b a b' hne⟩
    unfold Broadcast.WatchCount
    rw [hdc b a b' hne]
  · intro b a b' hne
    refine ⟨?_, hkc b a b' hne⟩
    unfold UniqueBroadcast.WatchCount
    rw [hkc b a b' hne]

/-- C8 witness: `Clean("a")` leaves `WatchCount("b")` untouched on concrete
two-signal registries of both kinds. -/
theorem claim_C8_witness :
    (((⟨[], some [("a", [1]), ("b", [2, 3])]⟩ : Broadcast Unit Nat).Clean "a").WatchCount "b"
        = (⟨[], some [("a", [1]), ("b", [2, 3])]⟩ : Broadcast Unit Nat).WatchCount "b" ∧
      lookup? (((⟨[], some [("a", [1]), ("b", [2, 3])]⟩ :
          Broadcast Unit Nat).Clean "a").listeners.getD []) "b"
        = lookup? ((⟨[], some [("a", [1]), ("b", [2, 3])]⟩ :
          Broadcast Unit Nat).listeners.getD []) "b") ∧
    (((⟨[], some [("b", [⟨1, 1⟩])]⟩ : UniqueBroadcast Unit Nat Nat).Clean "a").WatchCount "b"
        = (⟨[], some [("b", [⟨1, 1⟩])]⟩ : UniqueBroadcast Unit Nat Nat).WatchCount "b" ∧
      lookup? (((⟨[], some [("b", [⟨1, 1⟩])]⟩ :
          UniqueBroadcast Unit Nat Nat).Clean "a").listeners.getD []) "b"
        = lookup? ((⟨[], some [("b", [⟨1, 1⟩])]⟩ :
          UniqueBroadcast Unit Nat Nat).listeners.getD []) "b") :=
  ⟨(@claim_C8_clean_scoping_handlers_monotone Unit Nat Nat Nat _ _).1
      ⟨[], some [("a", [1]), ("b", [2, 3])]⟩ "a" "b" (by decide),
   (@claim_C8_clean_scoping_handlers_monotone Unit Nat Nat Nat _ _).2.2.2.2.2.1
      ⟨[], some [("b", [⟨1, 1⟩])]⟩ "a" "b" (by decide)⟩

/-- C9 counterexample: the claim asserts that a constantly-false visitor makes
`Range` visit exactly one signal "regardless of total signal count", but on a
registry with zero signals `Range` performs zero visits, not one. -/
theorem claim_C9_counterexample :
    (Broadcast.RangeVisits (Broadcast.New : Broadcast Unit Nat)
        (fun _ _ => false)).length = 0 ∧
    ¬ (Broadcast.RangeVisits (Broadcast.New : Broadcast Unit Nat)
        (fun _ _ => false)).length = 1 := by
  constructor <;> decide

/-- C9 (amended): for both registries, a visitor that returns false on its
first call makes `Range` visit exactly one signal whenever at least one signal
is present in the listener mapping (and none when the mapping is empty);
`Range` stops immediately the first time the visitor returns false; and an
always-true visitor is called once per signal present, with that signal's
listener count. -/
theorem claim_C9_range_early_exit {H T K T2 : Type} [DecidableEq T] [DecidableEq K] :
    (∀ (b : Broadcast H T) (e : String × List T) (rest : List (String × List T)),
        b.listeners.getD [] = e :: rest →
        b.RangeVisits (fun _ _ => false) = [(e.1, e.2.length)]) ∧
    (∀ (b : Broadcast H T) (fn : String → Nat → Bool) (p rest : List (String × List T))
        (e : String × List T),
        b.listeners.getD [] = p ++ e :: rest →
        (∀ x ∈ p, fn x.1 x.2.length = true) → fn e.1 e.2.length = false →
        b.RangeVisits fn = p.map (fun x => (x.1, x.2.length)) ++ [(e.1, e.2.length)]) ∧
    (∀ (b : Broadcast H T) (fn : String → Nat → Bool),
        (∀ e ∈ b.listeners.getD [], fn e.1 e.2.length = true) →
        b.RangeVisits fn = (b.listeners.getD []).map (fun e => (e.1, e.2.length))) ∧
    (∀ (b : UniqueBroadcast H K T2) (e : String × List (Uniquer K T2))
        (rest : List (String × List (Uniquer K T2))),
        b.listeners.getD [] = e :: rest →
        b.RangeVisits (fun _ _ => false) = [(e.1, e.2.length)]) ∧
    (∀ (b : UniqueBroadcast H K T2) (fn : String → Nat → Bool)
        (p rest : List (String × List (Uniquer K T2))) (e : String × List (Uniquer K T2)),
        b.listeners.getD [] = p ++ e :: rest →
        (∀ x ∈ p, fn x.1 x.2.length = true) → fn e.1 e.2.length = false →
        b.RangeVisits fn = p.map (fun x => (x.1, x.2.length)) ++ [(e.1, e.2.length)]) ∧
    (∀ (b : UniqueBroadcast H K T2) (fn : String → Nat → Bool),
        (∀ e ∈ b.listeners.getD [], fn e.1 e.2.length = true) →
        b.RangeVisits fn = (b.listeners.getD []).map (fun e => (e.1, e.2.length))) := by
  refine ⟨?_, ?_, ?_, ?_, ?_, ?_⟩
  · intro b e rest hm
    obtain ⟨k, l⟩ := e
    unfold Broadcast.RangeVisits
    rw [hm]
    exact rangeGo_cons_false _ _ _ _ rfl
  · intro b fn p rest e hm hp he
    unfold Broadcast.RangeVisits
    rw [hm]
    exact rangeGo_split fn p rest e hp he
  · intro b fn h
    unfold Broadcast.RangeVisits
    exact rangeGo_all_true fn _ h
  · intro b e rest hm
    obtain ⟨k, l⟩ := e
    unfold UniqueBroadcast.RangeVisits
    rw [hm]
    exact rangeGo_cons_false _ _ _ _ rfl
  · intro b fn p rest e hm hp he
    unfold UniqueBroadcast.RangeVisits
    rw [hm]
    exact rangeGo_split fn p rest e hp he
  · intro b fn h
    unfold UniqueBroadcast.RangeVisits
    exact rangeGo_all_true fn _ h

/-- C9 witness: on concrete registries with two signals, the constantly-false
visitor visits exactly one. -/
theorem claim_C9_witness :
    (⟨[], some [("a", [1]), ("b", [2])]⟩ : Broadcast Unit Nat).RangeVisits
        (fun _ _ => false) = [("a", 1)] ∧
    (⟨[], some [("a", [⟨1, 1⟩]), ("b", [⟨2, 2⟩])]⟩ :
        UniqueBroadcast Unit Nat Nat).RangeVisits (fun _ _ => false) = [("a", 1)] :=
  ⟨(@claim_C9_range_early_exit Unit Nat Nat Nat _ _).1
      ⟨[], some [("a", [1]), ("b", [2])]⟩ ("a", [1]) [("b", [2])] rfl,
   (@claim_C9_range_early_exit Unit Nat Nat Nat _ _).2.2.2.1
      ⟨[], some [("a", [⟨1, 1⟩]), ("b", [⟨2, 2⟩])]⟩ ("a", [⟨1, 1⟩]) [("b", [⟨2, 2⟩])] rfl⟩

/-- C10: for both registries, unwatching a signal's last listener leaves the
signal present in the map with an empty list: an always-true `Range` still
visits it with count 0 while `HasWatch` is false and `WatchCount` is 0;
`Clean` (or `CleanAll`) then removes the key, after which no `Range` visit
mentions the signal; and further `Watch`/`Unwatch` calls never remove a
present key, so only `Clean`/`CleanAll` remove a signal from `Range`'s
enumeration. -/
theorem claim_C10_empty_vs_absent_range {H T K T2 : Type} [DecidableEq T] [DecidableEq K] :
    (∀ (b : Broadcast H T) (s : String) (d : T),
        lookup? (b.listeners.getD []) s = some [d] →
        lookup? ((b.Unwatch s d).listeners.getD []) s = some [] ∧
        (s, 0) ∈ (b.Unwatch s d).RangeVisits (fun _ _ => true) ∧
        (b.Unwatch s d).HasWatch s = false ∧
        (b.Unwatch s d).WatchCount s = 0 ∧
        lookup? (((b.Unwatch s d).Clean s).listeners.getD []) s = none ∧
        (∀ c, (s, c) ∉ ((b.Unwatch s d).Clean s).RangeVisits (fun _ _ => true)) ∧
        lookup? ((b.Unwatch s d).CleanAll.listeners.getD []) s = none ∧
        (∀ (s2 : String) (d2 : T),
          (lookup? (((b.Unwatch s d).Watch s2 d2).listeners.getD []) s).isSome ∧
          (lookup? (((b.Unwatch s d).Unwatch s2 d2).listeners.getD []) s).isSome)) ∧
    (∀ (b : UniqueBroadcast H K T2) (s : String) (d u : Uniquer K T2),
        lookup? (b.listeners.getD []) s = some [u] → u.unique = d.unique →
        lookup? ((b.Unwatch s d).listeners.getD []) s = some [] ∧
        (s, 0) ∈ (b.Unwatch s d).RangeVisits (fun _ _ => true) ∧
        (b.Unwatch s d).HasWatch s = false ∧
        (b.Unwatch s d).WatchCount s = 0 ∧
        lookup? (((b.Unwatch s d).Clean s).listeners.getD []) s = none ∧
        (∀ c, (s, c) ∉ ((b.Unwatch s d).Clean s).RangeVisits (fun _ _ => true)) ∧
        lookup? ((b.Unwatch s d).CleanAll.listeners.getD []) s = none ∧
        (∀ (s2 : String) (d2 : Uniquer K T2),
          (lookup? (((b.Unwatch s d).Watch s2 d2).listeners.getD []) s).isSome ∧
          (lookup? (((b.Unwatch s d).Unwatch s2 d2).listeners.getD []) s).isSome)) := by
  constructor
  · intro b s d hl
    have hq := Broadcast.Unwatch_found b s d [] [] (by simpa using hl) (by simp)
    have hlook : lookup? ((b.Unwatch s d).listeners.getD []) s = some [] := by
      rw [hq]
      simpa using lookup?_mset_self (b.listeners.getD []) s []
    refine ⟨hlook, ?_, ?_, ?_, ?_, ?_, ?_, ?_⟩
    · have hmem : (s, ([] : List T)) ∈ (b.Unwatch s d).listeners.getD [] :=
        lookup?_mem hlook
      unfold Broadcast.RangeVisits
      rw [rangeGo_all_true _ _ (fun e he => rfl)]
      exact List.mem_map.mpr ⟨(s, []), hmem, rfl⟩
    · simp [Broadcast.HasWatch, hlook]
    · simp [Broadcast.WatchCount, hlook]
    · unfold Broadcast.Clean
      cases hbl : (b.Unwatch s d).listeners with
      | none => simp [hbl] at hlook
      | some m =>
        simp only [Option.map_some', Option.getD_some]
        exact lookup?_mdel_self m s
    · intro c hc
      obtain ⟨l, hml, _⟩ := rangeGo_mem _ _ _ _ hc
      have hsome := lookup?_isSome_of_mem hml
      have hnone : lookup? (((b.Unwatch s d).Clean s).listeners.getD []) s = none := by
        unfold Broadcast.Clean
        cases hbl : (b.Unwatch s d).listeners with
        | none => simp [hbl] at hlook
        | some m =>
          simp only [Option.map_some', Option.getD_some]
          exact lookup?_mdel_self m s
      rw [hnone] at hsome
      exact absurd hsome (by simp)
    · simp [Broadcast.CleanAll]
    · intro s2 d2
      exact ⟨Broadcast.lookup_isSome_Watch _ s2 s d2 (by simp [hlook]),
        Broadcast.lookup_isSome_Unwatch _ s2 s d2 (by simp [hlook])⟩
  · intro b s d u hl hu
    have hq := UniqueBroadcast.uUnwatch_found b s d u [] [] (by simpa using hl) hu (by simp)
    have hlook : lookup? ((b.Unwatch s d).listeners.getD []) s = some [] := by
      rw [hq]
      simpa using lookup?_mset_self (b.listeners.getD []) s []
    refine ⟨hlook, ?_, ?_, ?_, ?_, ?_, ?_, ?_⟩
    · have hmem : (s, ([] : List (Uniquer K T2))) ∈ (b.Unwatch s d).listeners.getD [] :=
        lookup?_mem hlook
      unfold UniqueBroadcast.RangeVisits
      rw [rangeGo_all_true _ _ (fun e he => rfl)]
      exact List.mem_map.mpr ⟨(s, []), hmem, rfl⟩
    · simp [UniqueBroadcast.HasWatch, hlook]
    · simp [UniqueBroadcast.WatchCount, hlook]
    · unfold UniqueBroadcast.Clean
      cases hbl : (b.Unwatch s d).listeners with
      | none => simp [hbl] at hlook
      | some m =>
        simp only [Option.map_some', Option.getD_some]
        exact lookup?_mdel_self m s
    · intro c hc
      obtain ⟨l, hml, _⟩ := rangeGo_mem _ _ _ _ hc
      have hsome := lookup?_isSome_of_mem hml
      have hnone : lookup? (((b.Unwatch s d).Clean s).listeners.getD []) s = none := by
        unfold UniqueBroadcast.Clean
        cases hbl : (b.Unwatch s d).listeners with
        | none => simp [hbl] at hlook
        | some m =>
          simp only [Option.map_some', Option.getD_some]
          exact lookup?_mdel_self m s
      rw [hnone] at hsome
      exact absurd hsome (by simp)
    · simp [UniqueBroadcast.CleanAll]
    · intro s2 d2
      exact ⟨UniqueBroadcast.ulookup_isSome_Watch _ s2 s d2 (by simp [hlook]),
        UniqueBroadcast.ulookup_isSome_Unwatch _ s2 s d2 (by simp [hlook])⟩

/-- C10 witness: its core clauses at a direct registry whose only listener of
`"a"` is unwatched, and at the keyed analogue. -/
theorem claim_C10_witness :
    (lookup? (((⟨[], some [("a", [7])]⟩ : Broadcast Unit Nat).Unwatch
        "a" 7).listeners.getD []) "a" = some [] ∧
      ("a", 0) ∈ ((⟨[], some [("a", [7])]⟩ : Broadcast Unit Nat).Unwatch
        "a" 7).RangeVisits (fun _ _ => true) ∧
      ((⟨[], some [("a", [7])]⟩ : Broadcast Unit Nat).Unwatch "a" 7).HasWatch "a" = false) ∧
    (lookup? (((⟨[], some [("a", [⟨5, 50⟩])]⟩ : UniqueBroadcast Unit Nat Nat).Unwatch
        "a" ⟨5, 99⟩).listeners.getD []) "a" = some [] ∧
      ((⟨[], some [("a", [⟨5, 50⟩])]⟩ : UniqueBroadcast Unit Nat Nat).Unwatch
        "a" ⟨5, 99⟩).WatchCount "a" = 0) := by
  have hd := (@claim_C10_empty_vs_absent_range Unit Nat Nat Nat _ _).1
    (⟨[], some [("a", [7])]⟩ : Broadcast Unit Nat) "a" 7 (by decide)
  have hk := (@claim_C10_empty_vs_absent_range Unit Nat Nat Nat _ _).2
    (⟨[], some [("a", [⟨5, 50⟩])]⟩ : UniqueBroadcast Unit Nat Nat) "a" ⟨5, 99⟩ ⟨5, 50⟩
    (by decide) rfl
  exact ⟨⟨hd.1, hd.2.1, hd.2.2.1⟩, ⟨hk.1, hk.2.2.2.1⟩⟩

end BroadcastRepo
